import Mathlib

/-!
Shallow embedding of the Tamp compression codec (pure Python reference
implementation: `src/tamp/compressor.py`, `src/tamp/decompressor.py`,
`src/tamp/__init__.py`), together with theorems settling the frozen claims.

Bytes are modelled as `Nat` (values kept below 256 by the operations that
produce them), byte strings as `List Nat`.  Python's unbounded integers are
`Nat`; the explicit `& mask` operations of the source are translated as
`% 2^w`.  Loops are translated as fuel-based structural recursions; every
fuel argument is chosen at the call site to be at least the number of
iterations the Python loop can perform, so the fuel-exhaustion branch is
unreachable there.  Python exceptions are an explicit `TampError` value.
-/

namespace Tamp

/-- Python exceptions raised by the codec. -/
inductive TampError where
  | valueError
  | excessBits
  | eofError
  | notImplementedError
  | runtimeError
  | indexError
deriving DecidableEq, Repr

/-! ## Format constants (src/tamp/compressor.py lines 20-35) -/

/-- `_huffman_codes`: encodes [0, 14] pattern lengths. -/
def huffmanCodes : List Nat :=
  [0x00, 0x03, 0x08, 0x0b, 0x14, 0x24, 0x26, 0x2b, 0x4b, 0x54, 0x94, 0x95, 0xaa, 0x27, 0xab]

/-- `_huffman_bits`: bit lengths, pre-adding the 1 bit for the 0-value is_literal flag. -/
def huffmanBits : List Nat := [2, 3, 5, 5, 6, 7, 7, 7, 8, 8, 9, 9, 9, 7, 9]

def FLUSH_CODE : Nat := 0xAB

def RLE_SYMBOL : Nat := 12

def RLE_BITS : Nat := 8

def USE_RLE_EXTENDED_HUFFMAN : Bool := true

def RLE_EXTENDED_HUFFMAN_BITS : Nat := 4

def USE_MATCH_EXTENSION_HUFFMAN : Bool := false

def MATCH_EXTENSION_TRUNCATE_BITS : Nat := 0

def MATCH_EXTENSION_BITS : Nat := 6

/-! ## Helpers from src/tamp/__init__.py -/

/-- Auxiliary loop of `bit_size` (`for i in range(32): ...`). -/
def bitSizeAux : Nat → Nat → Nat → Int
  | 0, _, _ => -1
  | fuel + 1, i, value =>
    if value = 0 then Int.ofNat i else bitSizeAux fuel (i + 1) (value >>> 1)

/-- `bit_size(value)` from src/tamp/__init__.py. -/
def bitSize (value : Nat) : Int := bitSizeAux 32 0 value

/-- `compute_min_pattern_size(window, literal)` from src/tamp/__init__.py. -/
def computeMinPatternSize (window literal : Nat) : Except TampError Nat :=
  if 7 < window ∧ window < 16 ∧ 4 < literal ∧ literal < 9 then
    .ok (2 + (if 10 + ((literal - 5) <<< 1) < window then 1 else 0))
  else .error .valueError

/-- The default xorshift32 seed used by `initialize_dictionary`. -/
def XORSHIFT_SEED : Nat := 3758097560

/-- One step of the `_xorshift32` generator (all arithmetic within 32 bits). -/
def xorshift32Step (s : Nat) : Nat :=
  let s1 := s ^^^ ((s <<< 13) % 4294967296)
  let s2 := s1 ^^^ ((s1 >>> 17) % 4294967296)
  s2 ^^^ ((s2 <<< 5) % 4294967296)

/-- `chars = b" \x000ei>to<ans\nr/."`, the 16 most common chars in the dataset. -/
def seedChars : List Nat :=
  [0x20, 0x00, 0x30, 0x65, 0x69, 0x3e, 0x74, 0x6f, 0x3c, 0x61, 0x6e, 0x73, 0x0a, 0x72, 0x2f, 0x2e]

/-- The 8 bytes generated from one 32-bit xorshift value, taking successive
4-bit nibbles from LSB to MSB and indexing into `seedChars`. -/
def nibbleBytes : Nat → Nat → List Nat
  | 0, _ => []
  | k + 1, v => seedChars.getD (v % 16) 0 :: nibbleBytes k (v >>> 4)

/-- The byte stream produced by `_gen_stream` over `n` xorshift values. -/
def dictStream : Nat → Nat → List Nat
  | 0, _ => []
  | n + 1, seed =>
    let v := xorshift32Step seed
    nibbleBytes 8 v ++ dictStream n v

/-- `initialize_dictionary(size)` with the default seed.  The Python function
allocates `size` zero bytes and then overwrites the first `8 * (size >> 3)`
of them with the generated stream; for the sizes used by the codec
(`size = 2^w`, `w ≥ 8`) the stream covers the whole buffer, so the result is
exactly the generated stream. -/
def initDictionary (size : Nat) : List Nat :=
  dictStream (size >>> 3) XORSHIFT_SEED

/-! ## Ring buffer (src/tamp/compressor.py class _RingBuffer; the
decompressor's _RingBuffer has the same write/get/last_written_byte
semantics) -/

structure RingBuffer where
  buffer : List Nat
  pos : Nat
deriving DecidableEq, Repr

/-- `write_byte`: store at `pos` and advance it modulo the size. -/
def RingBuffer.writeByte (r : RingBuffer) (b : Nat) : RingBuffer :=
  { buffer := r.buffer.set r.pos b, pos := (r.pos + 1) % r.buffer.length }

/-- `write_bytes`: repeated single-byte writes. -/
def RingBuffer.writeBytes (r : RingBuffer) (data : List Nat) : RingBuffer :=
  data.foldl RingBuffer.writeByte r

/-- `get(index, size)`: read `size` bytes starting at `index`, wrapping. -/
def RingBuffer.getRange (r : RingBuffer) (index size : Nat) : List Nat :=
  (List.range size).map (fun i => r.buffer.getD ((index + i) % r.buffer.length) 0)

/-- `write_from_self(position, size)`: snapshot then write (read-then-write). -/
def RingBuffer.writeFromSelf (r : RingBuffer) (position size : Nat) : RingBuffer :=
  r.writeBytes (r.getRange position size)

/-- `last_written_byte`. -/
def RingBuffer.lastWrittenByte (r : RingBuffer) : Nat :=
  if r.pos = 0 then r.buffer.getD (r.buffer.length - 1) 0 else r.buffer.getD (r.pos - 1) 0

/-- First index `≥ i` (counting the head of `hay` as index `i`) at which
`pattern` occurs contiguously inside `hay`; `none` when absent.  This is
`bytearray.index` restricted to the suffix starting at the search start. -/
def findFrom : List Nat → List Nat → Nat → Option Nat
  | [], pattern, i => if pattern = [] then some i else none
  | a :: t, pattern, i =>
    if pattern.isPrefixOf (a :: t) then some i else findFrom t pattern (i + 1)

/-- `_RingBuffer.index(pattern, start)`: linear search, no wrap-around. -/
def RingBuffer.indexOfFrom (r : RingBuffer) (pattern : List Nat) (start : Nat) : Option Nat :=
  findFrom (r.buffer.drop start) pattern start

/-! ## Bit writer (src/tamp/compressor.py class _BitWriter)

In addition to the fields of the Python object, the state carries `out`
(the bytes written to the underlying stream `f`, in order) and `log`, the
sequence of `(masked bits, num_bits)` arguments of every `write` call, in
order.  The log does not influence any other field; it only records the
call sequence so that theorems can speak about the order and widths of the
emitted fields. -/

structure BitWriter where
  buffer : Nat
  bitPos : Nat
  out : List Nat
  log : List (Nat × Nat)
deriving DecidableEq, Repr

def BitWriter.init : BitWriter := { buffer := 0, bitPos := 0, out := [], log := [] }

/-- The `while self.bit_pos >= 8` drain loop of `_BitWriter.write`.  The
fuel passed by `write` is the current `bit_pos`, an upper bound on the
possible iterations. -/
def BitWriter.drain : Nat → BitWriter → BitWriter × Nat
  | 0, w => (w, 0)
  | fuel + 1, w =>
    if 8 ≤ w.bitPos then
      let byte := w.buffer >>> 24
      let w1 : BitWriter :=
        { w with out := w.out ++ [byte], buffer := (w.buffer % 0x1000000) <<< 8,
                 bitPos := w.bitPos - 8 }
      let r := BitWriter.drain fuel w1
      (r.1, r.2 + 1)
    else (w, 0)

/-- `_BitWriter.write(bits, num_bits, flush)`.  In every reachable state
`bit_pos + num_bits ≤ 32`, so the Nat subtraction `32 - bp` agrees with the
Python value. -/
def BitWriter.write (w : BitWriter) (bits numBits : Nat) (flush : Bool) : BitWriter × Nat :=
  let b := bits % (2 ^ numBits)
  let bp := w.bitPos + numBits
  let w1 : BitWriter :=
    { w with bitPos := bp, buffer := w.buffer ||| (b <<< (32 - bp)), log := w.log ++ [(b, numBits)] }
  if flush then BitWriter.drain bp w1 else (w1, 0)

/-- `_BitWriter.write_huffman(pattern_size)`. -/
def BitWriter.writeHuffman (w : BitWriter) (patternSize : Nat) : BitWriter × Nat :=
  w.write (huffmanCodes.getD patternSize 0) (huffmanBits.getD patternSize 0) true

/-- `_BitWriter.write_extended_huffman(value, extended_bits, truncate_bits)`.
Mirrors the source exactly, including the fixed width `2` of the final
`write` call and the fact that the return value of the truncated `write`
is not added to `bytes_written`. -/
def BitWriter.writeExtendedHuffman (w : BitWriter) (value extendedBits truncateBits : Nat) :
    Except TampError (BitWriter × Nat) :=
  if (15 - truncateBits) * (1 <<< extendedBits) ≤ value then .error .valueError
  else
    let hv0 := (value >>> extendedBits) + truncateBits
    let hv := if hv0 = 13 then 14 else if hv0 = 14 then 13 else hv0
    let r1 :=
      if truncateBits ≠ 0 then
        w.write (huffmanCodes.getD hv 0) (huffmanBits.getD hv 0 - truncateBits) true
      else
        w.writeHuffman hv
    let bw0 := if truncateBits ≠ 0 then 0 else r1.2
    let r2 := r1.1.write (value % (1 <<< extendedBits)) 2 true
    .ok (r2.1, bw0 + r2.2)

/-- `_BitWriter.flush(write_token)`.  The Python `while bit_pos > 0` loop
sets `bit_pos = 0` in its body, so it runs at most once. -/
def BitWriter.flushW (w : BitWriter) (writeToken : Bool) : BitWriter × Nat :=
  let r1 := if 0 < w.bitPos ∧ writeToken then w.write FLUSH_CODE 9 true else (w, 0)
  let w1 := r1.1
  if 0 < w1.bitPos then
    ({ w1 with out := w1.out ++ [(w1.buffer >>> 24) % 256], bitPos := 0, buffer := 0 }, r1.2 + 1)
  else (w1, r1.2)

/-! ## Compressor state (src/tamp/compressor.py class Compressor)

Besides the attributes of the Python object, the state carries two pieces
of instrumentation that influence nothing else: `stepTrace` records, for
every call to `_compress_input_buffer_single`, the input-buffer length
before and after the call; `evicted` records every byte silently dropped
from the left of the bounded `deque(maxlen=16)` input buffer by an
`append` on a full buffer. -/

structure CompState where
  windowBits : Nat
  literalBits : Nat
  v2 : Bool
  minPatternSize : Nat
  maxPatternSize : Nat
  literalFlag : Nat
  rleCount : Nat
  rleLastWritten : Bool
  rleMaxSize : Nat
  rleBreakeven : Nat
  extCount : Nat
  extPos : Nat
  lazyMatching : Bool
  cachedMatchIndex : Int
  cachedMatchSize : Nat
  window : RingBuffer
  inputBuffer : List Nat
  writer : BitWriter
  stepTrace : List (Nat × Nat)
  evicted : List Nat
deriving DecidableEq, Repr

/-- The per-length cost table of `_determine_rle_breakeven_point`. -/
def rleLengthBits (i : Nat) : Nat :=
  if USE_RLE_EXTENDED_HUFFMAN then
    8 + RLE_EXTENDED_HUFFMAN_BITS + huffmanBits.getD (i >>> RLE_EXTENDED_HUFFMAN_BITS) 0
  else 8 + 8

/-- `_determine_rle_breakeven_point(min_pattern_size, window_bits)`:
the last `pattern_size` in `[min, min+11]` whose pattern encoding is
strictly cheaper than its RLE encoding (`0` if none). -/
def determineRleBreakeven (minPatternSize windowBits : Nat) : Nat :=
  (List.range 12).foldl
    (fun acc k =>
      let ps := minPatternSize + k
      if huffmanBits.getD (ps - minPatternSize) 0 + windowBits < rleLengthBits ps then ps
      else acc)
    0

/-- `Compressor.__init__` (writing to an in-memory stream, so no path
handling).  `dictionary = some []` models an empty caller bytearray, which
is falsy in Python. -/
def compressorInit (window literal : Nat) (dictionary : Option (List Nat))
    (lazyMatching v2 : Bool) : Except TampError CompState :=
  match computeMinPatternSize window literal with
  | .error e => .error e
  | .ok minP =>
    let rleMaxSize :=
      if USE_RLE_EXTENDED_HUFFMAN then 15 * (1 <<< RLE_EXTENDED_HUFFMAN_BITS) else 1 <<< RLE_BITS
    let rleBreakeven := determineRleBreakeven minP window
    let dictTruthy : Bool := match dictionary with | some d => !d.isEmpty | none => false
    if dictTruthy ∧ bitSize ((dictionary.getD []).length - 1) ≠ Int.ofNat window then
      .error .valueError
    else
      let maxP :=
        if v2 then
          if USE_MATCH_EXTENSION_HUFFMAN then
            minP + 11 + (15 - MATCH_EXTENSION_TRUNCATE_BITS) * (1 <<< MATCH_EXTENSION_BITS)
          else
            minP + 11 + (1 <<< MATCH_EXTENSION_BITS)
        else minP + 13
      let buf :=
        if dictTruthy then dictionary.getD [] else initDictionary (1 <<< window)
      let w1 := (BitWriter.init.write (window - 8) 3 false).1
      let w2 := (w1.write (literal - 5) 2 false).1
      let w3 := (w2.write (if dictTruthy then 1 else 0) 1 false).1
      let w4 := (w3.write (if v2 then 1 else 0) 1 false).1
      let w5 := (w4.write 0 1 false).1
      .ok { windowBits := window, literalBits := literal, v2 := v2, minPatternSize := minP,
            maxPatternSize := maxP, literalFlag := 1 <<< literal, rleCount := 0,
            rleLastWritten := false, rleMaxSize := rleMaxSize, rleBreakeven := rleBreakeven,
            extCount := 0, extPos := 0, lazyMatching := lazyMatching, cachedMatchIndex := -1,
            cachedMatchSize := 0, window := { buffer := buf, pos := 0 }, inputBuffer := [],
            writer := w5, stepTrace := [], evicted := [] }

/-- The `for match_size in range(...)` loop of `Compressor._search`: walks
the candidate sizes, carrying the index of the last successful find and the
last successful size (`0` before the first iteration). -/
def searchGo (win : RingBuffer) (target : List Nat) : List Nat → Nat → Nat → Nat × Nat
  | [], si, last => (si, last)
  | ms :: rest, si, _ =>
    match win.indexOfFrom (target.take ms) si with
    | some i => searchGo win target rest i ms
    | none => (si, ms - 1)

/-- `Compressor._search(target, start)`: returns `(search_i, match)`. -/
def CompState.search (st : CompState) (target : List Nat) (start : Nat) : Nat × List Nat :=
  let bound := min target.length st.maxPatternSize
  let msList := (List.range (bound + 1 - st.minPatternSize)).map (fun k => st.minPatternSize + k)
  let r := searchGo st.window target msList start 0
  (r.1, target.take r.2)

/-- `Compressor._write_pattern_extended_bits`. -/
def CompState.writePatternExtendedBits (st : CompState) : Except TampError (CompState × Nat) :=
  let payload := st.extCount - st.minPatternSize - 11 - 1
  let res : Except TampError (BitWriter × Nat) :=
    if USE_MATCH_EXTENSION_HUFFMAN then
      st.writer.writeExtendedHuffman payload MATCH_EXTENSION_BITS MATCH_EXTENSION_TRUNCATE_BITS
    else
      .ok (st.writer.write payload MATCH_EXTENSION_BITS true)
  match res with
  | .error e => .error e
  | .ok (w, n) =>
    let win := st.window.writeFromSelf st.extPos st.extCount
    .ok ({ st with writer := w, window := win, extCount := 0, extPos := 0 }, n)

/-- `Compressor._write_literal(literal)` (callbacks are `None`). -/
def CompState.writeLiteral (st : CompState) (lit : Nat) : Except TampError (CompState × Nat) :=
  if lit >>> st.literalBits ≠ 0 then .error .excessBits
  else
    let r := st.writer.write (lit ||| st.literalFlag) (st.literalBits + 1) true
    .ok ({ st with writer := r.1, window := st.window.writeByte lit, rleLastWritten := false },
         r.2)

/-- `Compressor._write_pattern(search_i, match)` (callbacks are `None`). -/
def CompState.writePattern (st : CompState) (searchI : Nat) (mtch : List Nat) : CompState × Nat :=
  let r1 := st.writer.writeHuffman (mtch.length - st.minPatternSize)
  let r2 := r1.1.write searchI st.windowBits true
  ({ st with writer := r2.1, window := st.window.writeBytes mtch, rleLastWritten := false },
   r1.2 + r2.2)

/-- `Compressor._write_rle` (callbacks are `None`). -/
def CompState.writeRle (st : CompState) : Except TampError (CompState × Nat) :=
  let last := st.window.lastWrittenByte
  if st.rleCount = 0 then .error .valueError
  else if st.rleCount = 1 then
    let r := st.writer.write (last ||| st.literalFlag) (st.literalBits + 1) true
    .ok ({ st with writer := r.1, rleCount := 0 }, r.2)
  else
    let r1 := st.writer.writeHuffman RLE_SYMBOL
    let res : Except TampError (BitWriter × Nat) :=
      if USE_RLE_EXTENDED_HUFFMAN then
        r1.1.writeExtendedHuffman (st.rleCount - 1) RLE_EXTENDED_HUFFMAN_BITS 0
      else
        .ok (r1.1.write (st.rleCount - 1) RLE_BITS true)
    match res with
    | .error e => .error e
    | .ok (w2, n2) =>
      let win :=
        if st.rleLastWritten then st.window
        else st.window.writeBytes (List.replicate (min st.rleCount 8) last)
      .ok ({ st with writer := w2, window := win, rleLastWritten := true, rleCount := 0 },
           r1.2 + n2)

/-- The inner wrap-around loop of the extended-match continuation
(`while self._input_buffer:` at src/tamp/compressor.py line 307).  `base`
is `search_i + match_size`, which the source does not advance while the
loop runs.  Returns the bytes written and whether the loop emitted at the
maximum size, ran out of input (`while`-`else`), or found the end of the
match (`break`, after which the caller emits). -/
inductive ExtWrapExit where
  | emitMax
  | ranOut
  | endFound
deriving DecidableEq, Repr

def extWrapLoop (base : Nat) : Nat → CompState → Except TampError (CompState × Nat × ExtWrapExit)
  | 0, st => .ok (st, 0, .ranOut)
  | fuel + 1, st =>
    match st.inputBuffer with
    | [] => .ok (st, 0, .ranOut)
    | c :: rest =>
      let pos := base % st.window.buffer.length
      if st.window.buffer.getD pos 0 = c then
        let st1 := { st with inputBuffer := rest, extCount := st.extCount + 1 }
        if st1.extCount = st1.maxPatternSize then
          match st1.writePatternExtendedBits with
          | .error e => .error e
          | .ok (st2, n) => .ok (st2, n, .emitMax)
        else extWrapLoop base fuel st1
      else .ok (st, 0, .endFound)

/-- The outer extended-match continuation loop
(`while self._input_buffer:` at src/tamp/compressor.py line 293). -/
def extContLoop : Nat → CompState → List Nat → Except TampError (CompState × Nat)
  | 0, st, _ => .ok (st, 0)
  | fuel + 1, st, target =>
    match st.inputBuffer with
    | [] => .ok (st, 0)
    | c :: rest =>
      let target1 := target ++ [c]
      let sr := st.search target1 st.extPos
      let searchI := sr.1
      let matchSize := sr.2.length
      if st.extCount < matchSize then
        let st1 := { st with inputBuffer := rest, extCount := matchSize, extPos := searchI }
        if st1.extCount = st1.maxPatternSize then
          match st1.writePatternExtendedBits with
          | .error e => .error e
          | .ok (st2, n) => .ok (st2, n)
        else extContLoop fuel st1 target1
      else if st.window.buffer.length ≤ searchI + matchSize then
        match extWrapLoop (searchI + matchSize) (st.inputBuffer.length + 1) st with
        | .error e => .error e
        | .ok (st1, n, .emitMax) => .ok (st1, n)
        | .ok (st1, n, .ranOut) => .ok (st1, n)
        | .ok (st1, n, .endFound) =>
          match st1.writePatternExtendedBits with
          | .error e => .error e
          | .ok (st2, m) => .ok (st2, n + m)
      else
        match st.writePatternExtendedBits with
        | .error e => .error e
        | .ok (st1, n) => .ok (st1, n)

/-- The v2 RLE same-character-counting loop
(`while target and ...` at src/tamp/compressor.py line 337). -/
def rleCountLoop : Nat → CompState → CompState
  | 0, st => st
  | fuel + 1, st =>
    match st.inputBuffer with
    | [] => st
    | c :: rest =>
      if c = st.window.lastWrittenByte ∧ st.rleCount < st.rleMaxSize then
        rleCountLoop fuel { st with rleCount := st.rleCount + 1, inputBuffer := rest }
      else st

/-- The emission tail of `_compress_input_buffer_single`
(src/tamp/compressor.py lines 405-423). -/
def CompState.emitPhase (st : CompState) (searchI : Nat) (mtch : List Nat) :
    Except TampError (CompState × Nat) :=
  let matchSize := mtch.length
  if st.minPatternSize ≤ matchSize then
    if st.v2 ∧ st.minPatternSize + 11 < matchSize then
      let r1 := st.writer.writeHuffman 13
      let r2 := r1.1.write searchI st.windowBits true
      .ok ({ st with writer := r2.1, extPos := searchI, extCount := matchSize,
                     rleLastWritten := false, inputBuffer := st.inputBuffer.drop matchSize },
           r1.2 + r2.2)
    else
      let r := st.writePattern searchI mtch
      .ok ({ r.1 with rleLastWritten := false, inputBuffer := r.1.inputBuffer.drop matchSize },
           r.2)
  else
    match st.inputBuffer with
    | [] => .error .indexError
    | lit :: rest => CompState.writeLiteral { st with inputBuffer := rest } lit

/-- `Compressor._compress_input_buffer_single`. -/
def CompState.step (st0 : CompState) : Except TampError (CompState × Nat) :=
  if st0.inputBuffer = [] then .ok (st0, 0)
  else if st0.extCount ≠ 0 then
    extContLoop (st0.inputBuffer.length + 1) st0 (st0.window.getRange st0.extPos st0.extCount)
  else
    let blockRes : Except TampError (Sum (CompState × Nat) (CompState × List Nat)) :=
      if st0.v2 then
        let st1 := rleCountLoop (st0.inputBuffer.length + 1) st0
        if st1.inputBuffer = [] ∧ st1.rleCount ≠ st1.rleMaxSize then .ok (.inl (st1, 0))
        else if st1.rleCount = 1 then
          let st2 :=
            { st1 with inputBuffer := st1.window.lastWrittenByte :: st1.inputBuffer,
                       rleCount := 0 }
          .ok (.inr (st2, st2.inputBuffer))
        else if st1.rleCount ≠ 0 then
          if st1.rleBreakeven < st1.rleCount then
            match st1.writeRle with
            | .error e => .error e
            | .ok r => .ok (.inl r)
          else .ok (.inr (st1, List.replicate st1.rleCount st1.window.lastWrittenByte))
        else .ok (.inr (st1, st1.inputBuffer))
      else .ok (.inr (st0, st0.inputBuffer))
    match blockRes with
    | .error e => .error e
    | .ok (.inl r) => .ok r
    | .ok (.inr (st2, target)) =>
      let cache :=
        if st2.lazyMatching ∧ 0 ≤ st2.cachedMatchIndex then
          let si := st2.cachedMatchIndex.toNat
          (si, st2.window.getRange si st2.cachedMatchSize,
           { st2 with cachedMatchIndex := -1 })
        else
          let sr := st2.search target 0
          (sr.1, sr.2, st2)
      let searchI := cache.1
      let mtch := cache.2.1
      let st3 := cache.2.2
      let matchSize := mtch.length
      if st3.rleCount ≠ 0 then
        if matchSize = st3.rleCount then
          let r := st3.writePattern searchI mtch
          .ok ({ r.1 with rleCount := 0 }, r.2)
        else st3.writeRle
      else if st3.lazyMatching ∧ st3.minPatternSize ≤ matchSize ∧ matchSize ≤ 8 ∧
              matchSize + 2 < st3.inputBuffer.length then
        let nextTarget := st3.inputBuffer.drop 1
        let nr := st3.search nextTarget 0
        let nsi := nr.1
        let nms := nr.2.length
        if matchSize < nms ∧ (st3.window.pos < nsi ∨ nsi + nms ≤ st3.window.pos) then
          match st3.inputBuffer with
          | [] => .error .indexError
          | lit :: rest =>
            match CompState.writeLiteral { st3 with inputBuffer := rest } lit with
            | .error e => .error e
            | .ok (st4, n) =>
              .ok ({ st4 with cachedMatchIndex := Int.ofNat nsi, cachedMatchSize := nms }, n)
        else st3.emitPhase searchI mtch
      else st3.emitPhase searchI mtch

/-- One `self._input_buffer.append(char)` on the `deque(maxlen=16)`:
appending to a full deque silently evicts the leftmost element. -/
def CompState.pushByte (st : CompState) (c : Nat) : CompState :=
  if st.inputBuffer.length = 16 then
    { st with inputBuffer := st.inputBuffer.drop 1 ++ [c],
              evicted := st.evicted ++ st.inputBuffer.take 1 }
  else { st with inputBuffer := st.inputBuffer ++ [c] }

/-- `Compressor.write(data)`. -/
def CompState.writeData : CompState → List Nat → Except TampError (CompState × Nat)
  | st, [] => .ok (st, 0)
  | st, c :: rest =>
    let st1 := st.pushByte c
    if st1.inputBuffer.length = 16 then
      match st1.step with
      | .error e => .error e
      | .ok (st2, n) =>
        let st3 :=
          { st2 with stepTrace := st2.stepTrace ++ [(st1.inputBuffer.length, st2.inputBuffer.length)] }
        match CompState.writeData st3 rest with
        | .error e => .error e
        | .ok (st4, m) => .ok (st4, n + m)
    else
      CompState.writeData st1 rest

/-- The `while self._input_buffer:` drain loop of `Compressor.flush`. -/
def CompState.flushLoop : Nat → CompState → Except TampError (CompState × Nat)
  | 0, st => .ok (st, 0)
  | fuel + 1, st =>
    if st.inputBuffer = [] then .ok (st, 0)
    else
      match st.step with
      | .error e => .error e
      | .ok (st1, n) =>
        let st2 :=
          { st1 with stepTrace := st1.stepTrace ++ [(st.inputBuffer.length, st1.inputBuffer.length)] }
        match CompState.flushLoop fuel st2 with
        | .error e => .error e
        | .ok (st3, m) => .ok (st3, n + m)

/-- `Compressor.flush(write_token)` (callbacks are `None`). -/
def CompState.flushC (st : CompState) (writeToken : Bool) : Except TampError (CompState × Nat) :=
  match st.flushLoop (2 * st.inputBuffer.length + 8) with
  | .error e => .error e
  | .ok (st1, n1) =>
    let r2 : Except TampError (CompState × Nat) :=
      if st1.v2 ∧ st1.rleCount ≠ 0 then st1.writeRle else .ok (st1, 0)
    match r2 with
    | .error e => .error e
    | .ok (st2, n2) =>
      let st3 :=
        if st2.lazyMatching then { st2 with cachedMatchIndex := -1, cachedMatchSize := 0 }
        else st2
      let rf := st3.writer.flushW writeToken
      let st4 :=
        { st3 with writer := rf.1,
                   rleLastWritten := if 0 < rf.2 then false else st3.rleLastWritten }
      .ok (st4, n1 + n2 + rf.2)

/-- `tamp.compressor.compress(data, window=.., literal=.., v2=..)` with no
caller dictionary and `lazy_matching=False`: write all data, then
`flush(write_token=False)`, and return the bytes of the output stream. -/
def compress (data : List Nat) (window literal : Nat) (v2 : Bool) : Except TampError (List Nat) :=
  match compressorInit window literal none false v2 with
  | .error e => .error e
  | .ok st =>
    match st.writeData data with
    | .error e => .error e
    | .ok (st1, _) =>
      match st1.flushC false with
      | .error e => .error e
      | .ok (st2, _) => .ok st2.writer.out

/-- Like `compress` but returning the whole final compressor state (for the
instrumentation fields). -/
def compressFinal (data : List Nat) (window literal : Nat) (v2 : Bool) :
    Except TampError CompState :=
  match compressorInit window literal none false v2 with
  | .error e => .error e
  | .ok st =>
    match st.writeData data with
    | .error e => .error e
    | .ok (st1, _) =>
      match st1.flushC false with
      | .error e => .error e
      | .ok (st2, _) => .ok st2

/-- The compressor state after `Compressor(...)` followed by a single
`write(data)` call (no flush). -/
def writeOnlyFinal (data : List Nat) (window literal : Nat) (v2 : Bool) :
    Except TampError CompState :=
  match compressorInit window literal none false v2 with
  | .error e => .error e
  | .ok st =>
    match st.writeData data with
    | .error e => .error e
    | .ok (st1, _) => .ok st1

/-! ## Bit reader (src/tamp/decompressor.py class _BitReader)

The underlying byte source `f` is modelled by `src`, the list of bytes
still unread; `f.read(1)` returning the empty string (end of currently
available input) corresponds to `src = []`.  All functions return the
updated reader even on `EOFError`, mirroring Python's in-place mutation. -/

structure BitReader where
  buffer : Nat
  bitPos : Nat
  backupBuffer : Option Nat
  backupBitPos : Option Nat
  src : List Nat
deriving DecidableEq, Repr

/-- The `while self.bit_pos < num_bits` fetch loop of `_BitReader.read`.
The fuel passed by `read` exceeds the number of fetches any call needs. -/
def BitReader.fetchLoop : Nat → Nat → BitReader → Except TampError Unit × BitReader
  | 0, _, r => (.ok (), r)
  | fuel + 1, numBits, r =>
    if r.bitPos < numBits then
      match r.src with
      | [] => (.error .eofError, r)
      | byte :: rest =>
        let r1 :=
          { r with src := rest, buffer := r.buffer ||| (byte <<< (56 - r.bitPos)),
                   bitPos := r.bitPos + 8 }
        let r2 :=
          match r1.backupBuffer, r1.backupBitPos with
          | some bb, some bp =>
            { r1 with backupBuffer := some (bb ||| (byte <<< (56 - bp))),
                      backupBitPos := some (bp + 8) }
          | _, _ => r1
        BitReader.fetchLoop fuel numBits r2
    else (.ok (), r)

/-- `_BitReader.read(num_bits)`. -/
def BitReader.read (numBits : Nat) (r : BitReader) : Except TampError Nat × BitReader :=
  match BitReader.fetchLoop (numBits + 8) numBits r with
  | (.error e, r1) => (.error e, r1)
  | (.ok _, r1) =>
    (.ok (r1.buffer >>> (64 - numBits)),
     { r1 with buffer := (r1.buffer % (1 <<< (64 - numBits))) <<< numBits,
               bitPos := r1.bitPos - numBits })

/-- `_huffman_lookup` of src/tamp/decompressor.py (the codes with the
leading match-flag bit stripped); `14` is `_FLUSH`. -/
def huffmanLookup (code : Nat) : Option Nat :=
  if code = 0 then some 0
  else if code = 3 then some 1
  else if code = 8 then some 2
  else if code = 11 then some 3
  else if code = 20 then some 4
  else if code = 36 then some 5
  else if code = 38 then some 6
  else if code = 43 then some 7
  else if code = 75 then some 8
  else if code = 84 then some 9
  else if code = 148 then some 10
  else if code = 149 then some 11
  else if code = 170 then some 12
  else if code = 39 then some 13
  else if code = 171 then some 14
  else none

/-- The `for _ in range(8)` loop of `_BitReader.read_huffman`. -/
def BitReader.readHuffmanAux : Nat → Nat → BitReader → Except TampError Nat × BitReader
  | 0, _, r => (.error .runtimeError, r)
  | fuel + 1, proposed, r =>
    match BitReader.read 1 r with
    | (.error e, r1) => (.error e, r1)
    | (.ok bit, r1) =>
      let p := proposed ||| bit
      match huffmanLookup p with
      | some v => (.ok v, r1)
      | none => BitReader.readHuffmanAux fuel (p <<< 1) r1

/-- `_BitReader.read_huffman`. -/
def BitReader.readHuffman (r : BitReader) : Except TampError Nat × BitReader :=
  BitReader.readHuffmanAux 8 0 r

/-- `_BitReader.clear`. -/
def BitReader.clear (r : BitReader) : BitReader :=
  { r with buffer := 0, bitPos := 0, backupBuffer := none, backupBitPos := none }

/-- `_BitReader.__enter__`: snapshot the accumulator. -/
def BitReader.enter (r : BitReader) : BitReader :=
  { r with backupBuffer := some r.buffer, backupBitPos := some r.bitPos }

/-- `_BitReader.__exit__` with no exception. -/
def BitReader.exitOk (r : BitReader) : BitReader :=
  { r with backupBuffer := none, backupBitPos := none }

/-- `_BitReader.__exit__` with an exception: restore the snapshot
(which has been tracking the bytes fetched during the transaction). -/
def BitReader.exitErr (r : BitReader) : BitReader :=
  { r with buffer := r.backupBuffer.getD r.buffer, bitPos := r.backupBitPos.getD r.bitPos,
           backupBuffer := none, backupBitPos := none }

/-! ## Decompressor (src/tamp/decompressor.py class Decompressor) -/

def CHUNK_SIZE : Nat := 1 <<< 20

def FLUSH : Nat := 14

def EXTENDED_MATCH_SYMBOL : Nat := 13

def RLE_MAX_WINDOW : Nat := 8

def LEADING_EXTENDED_MATCH_HUFFMAN_BITS : Nat := 3

def LEADING_RLE_HUFFMAN_BITS : Nat := 4

structure DecompState where
  windowBits : Nat
  literalBits : Nat
  extended : Bool
  minPatternSize : Nat
  window : RingBuffer
  overflow : List Nat
  reader : BitReader
deriving DecidableEq, Repr

/-- `Decompressor.__init__` reading from the byte list `src`.  Note that it
checks only the presence of a caller dictionary when the header's
custom-dictionary flag is set, never its length. -/
def decompressorInit (src : List Nat) (dictionary : Option (List Nat)) :
    Except TampError DecompState :=
  let r0 : BitReader :=
    { buffer := 0, bitPos := 0, backupBuffer := none, backupBitPos := none, src := src }
  match BitReader.read 3 r0 with
  | (.error e, _) => .error e
  | (.ok w, r1) =>
    match BitReader.read 2 r1 with
    | (.error e, _) => .error e
    | (.ok l, r2) =>
      match BitReader.read 1 r2 with
      | (.error e, _) => .error e
      | (.ok usesCustom, r3) =>
        match BitReader.read 1 r3 with
        | (.error e, _) => .error e
        | (.ok ext, r4) =>
          match BitReader.read 1 r4 with
          | (.error e, _) => .error e
          | (.ok more, r5) =>
            if more ≠ 0 then .error .notImplementedError
            else if usesCustom ≠ 0 ∧ dictionary = none then .error .valueError
            else
              let windowBits := w + 8
              let literalBits := l + 5
              let dictTruthy : Bool :=
                match dictionary with | some d => !d.isEmpty | none => false
              let buf :=
                if dictTruthy then dictionary.getD []
                else initDictionary (1 <<< windowBits)
              match computeMinPatternSize windowBits literalBits with
              | .error e => .error e
              | .ok minP =>
                .ok { windowBits := windowBits, literalBits := literalBits,
                      extended := ext ≠ 0, minPatternSize := minP,
                      window := { buffer := buf, pos := 0 }, overflow := [],
                      reader := r5 }

/-- The result of one iteration of the token loop in
`Decompressor.readinto`: the body of the `with self._bit_reader:` block
(and the `except EOFError: break` handler around it). -/
inductive TokenOutcome where
  | eofBreak
  | flushCont
  | tokenOut (string : List Nat)
deriving DecidableEq, Repr

/-- The part of the `Decompressor.readinto` token decode that follows the
successful Huffman decode of `match_size` (src/tamp/decompressor.py lines
246-281): the `if match_size == _FLUSH` chain down to the ordinary-match
branch. -/
def DecompState.decodeMatchPart (st : DecompState) (r2 : BitReader) (matchSize : Nat) :
    Except TampError TokenOutcome × DecompState :=
  if matchSize = FLUSH then (.ok .flushCont, { st with reader := r2.clear.exitOk })
  else if st.extended ∧ 11 < matchSize then
          if matchSize = RLE_SYMBOL then
            match BitReader.readHuffman r2 with
            | (.error .eofError, r3) => (.ok .eofBreak, { st with reader := r3.exitErr })
            | (.error e, r3) => (.error e, { st with reader := r3.exitErr })
            | (.ok h, r3) =>
              match BitReader.read LEADING_RLE_HUFFMAN_BITS r3 with
              | (.error .eofError, r4) => (.ok .eofBreak, { st with reader := r4.exitErr })
              | (.error e, r4) => (.error e, { st with reader := r4.exitErr })
              | (.ok raw, r4) =>
                let rleCount := (h <<< LEADING_RLE_HUFFMAN_BITS) + raw + 1 + 1
                let symbol := st.window.lastWrittenByte
                let string := List.replicate rleCount symbol
                let remaining := st.window.buffer.length - st.window.pos
                let windowWrite := min (min rleCount RLE_MAX_WINDOW) remaining
                (.ok (.tokenOut string),
                 { st with reader := r4.exitOk,
                           window := st.window.writeBytes (string.take windowWrite) })
          else if matchSize = EXTENDED_MATCH_SYMBOL then
            match BitReader.readHuffman r2 with
            | (.error .eofError, r3) => (.ok .eofBreak, { st with reader := r3.exitErr })
            | (.error e, r3) => (.error e, { st with reader := r3.exitErr })
            | (.ok h, r3) =>
              match BitReader.read LEADING_EXTENDED_MATCH_HUFFMAN_BITS r3 with
              | (.error .eofError, r4) => (.ok .eofBreak, { st with reader := r4.exitErr })
              | (.error e, r4) => (.error e, { st with reader := r4.exitErr })
              | (.ok raw, r4) =>
                let ms := (h <<< LEADING_EXTENDED_MATCH_HUFFMAN_BITS) + raw +
                          st.minPatternSize + 11 + 1
                match BitReader.read st.windowBits r4 with
                | (.error .eofError, r5) => (.ok .eofBreak, { st with reader := r5.exitErr })
                | (.error e, r5) => (.error e, { st with reader := r5.exitErr })
                | (.ok index, r5) =>
                  let string := st.window.getRange index ms
                  let remaining := st.window.buffer.length - st.window.pos
                  let windowWrite := min ms remaining
                  (.ok (.tokenOut string),
                   { st with reader := r5.exitOk,
                             window := st.window.writeBytes (string.take windowWrite) })
          else (.error .valueError, { st with reader := r2.exitErr })
        else
          let ms := matchSize + st.minPatternSize
          match BitReader.read st.windowBits r2 with
          | (.error .eofError, r3) => (.ok .eofBreak, { st with reader := r3.exitErr })
          | (.error e, r3) => (.error e, { st with reader := r3.exitErr })
          | (.ok index, r3) =>
            let string := st.window.getRange index ms
            (.ok (.tokenOut string),
             { st with reader := r3.exitOk, window := st.window.writeBytes string })

/-- One transactional token decode from `Decompressor.readinto`
(src/tamp/decompressor.py lines 237-286), not including the write to the
output buffer.  All byte-source reads of a token precede its window
mutation, so on `EOFError` the rolled-back reader is the only state
change. -/
def DecompState.decodeOneToken (st : DecompState) : Except TampError TokenOutcome × DecompState :=
  let r := st.reader.enter
  match BitReader.read 1 r with
  | (.error .eofError, r1) => (.ok .eofBreak, { st with reader := r1.exitErr })
  | (.error e, r1) => (.error e, { st with reader := r1.exitErr })
  | (.ok isLiteral, r1) =>
    if isLiteral ≠ 0 then
      match BitReader.read st.literalBits r1 with
      | (.error .eofError, r2) => (.ok .eofBreak, { st with reader := r2.exitErr })
      | (.error e, r2) => (.error e, { st with reader := r2.exitErr })
      | (.ok lit, r2) =>
        (.ok (.tokenOut [lit]),
         { st with reader := r2.exitOk, window := st.window.writeBytes [lit] })
    else
      match BitReader.readHuffman r1 with
      | (.error .eofError, r2) => (.ok .eofBreak, { st with reader := r2.exitErr })
      | (.error e, r2) => (.error e, { st with reader := r2.exitErr })
      | (.ok matchSize, r2) => st.decodeMatchPart r2 matchSize

/-- The `while bytes_written < len(buf)` loop of `Decompressor.readinto`.
The output `bytearray` is modelled by its capacity `cap` together with the
list `buf` of bytes written so far: the loop writes only at indices
`[bytes_written, bytes_written + to_buf)`, so the buffer's content is
always `buf` followed by its untouched remainder. -/
def readintoLoop : Nat → DecompState → Nat → Nat → List Nat →
    Except TampError (Nat × List Nat × DecompState)
  | 0, st, _, bw, buf => .ok (bw, buf, st)
  | fuel + 1, st, cap, bw, buf =>
    if bw < cap then
      match st.decodeOneToken with
      | (.error e, _) => .error e
      | (.ok .eofBreak, st1) => .ok (bw, buf, st1)
      | (.ok .flushCont, st1) => readintoLoop fuel st1 cap bw buf
      | (.ok (.tokenOut string), st1) =>
        let toBuf := min (cap - bw) string.length
        let buf1 := buf ++ string.take toBuf
        let bw1 := bw + toBuf
        if toBuf < string.length then
          .ok (bw1, buf1, { st1 with overflow := string.drop toBuf })
        else readintoLoop fuel st1 cap bw1 buf1
    else .ok (bw, buf, st)

/-- Fuel that dominates the possible iterations of the token loop: every
iteration that does not break consumes at least one bit of
`bit_pos + 8 * |src|`. -/
def DecompState.loopFuel (st : DecompState) : Nat :=
  8 * st.reader.src.length + st.reader.bitPos + 64

/-- `Decompressor.readinto(buf)` where `buf` is a fresh zero `bytearray` of
length `cap`: returns `(bytes_written, written prefix, state)`; the
buffer's full content is the prefix padded with the untouched zeros. -/
def DecompState.readinto (st : DecompState) (cap : Nat) :
    Except TampError (Nat × List Nat × DecompState) :=
  if cap < st.overflow.length then
    .ok (cap, st.overflow.take cap, { st with overflow := st.overflow.drop cap })
  else if !st.overflow.isEmpty then
    readintoLoop st.loopFuel { st with overflow := [] } cap st.overflow.length st.overflow
  else readintoLoop st.loopFuel st cap 0 []

/-- The `while True` chunk loop of `Decompressor.read`. -/
def DecompState.readLoop : Nat → DecompState → Int → Nat → List (List Nat) →
    Except TampError (List (List Nat) × DecompState)
  | 0, st, _, _, acc => .ok (acc, st)
  | fuel + 1, st, size, chunk, acc =>
    let cap := if size < 0 then chunk else size.toNat
    match st.readinto cap with
    | .error e => .error e
    | .ok (rs, filled, st1) =>
      if 0 < size then .ok (acc ++ [filled ++ List.replicate (cap - rs) 0], st1)
      else if rs < cap then
        .ok (acc ++ (if rs ≠ 0 then [filled] else []), st1)
      else DecompState.readLoop fuel st1 size (chunk <<< 1) (acc ++ [filled])

/-- `Decompressor.read(size)`.  (`out[0] if len(out) == 1 else join(out)`
is the concatenation in both cases.) -/
def DecompState.read (st : DecompState) (size : Int) : Except TampError (List Nat × DecompState) :=
  if size = 0 then .ok ([], st)
  else
    match DecompState.readLoop (st.reader.src.length + 2) st size CHUNK_SIZE [] with
    | .error e => .error e
    | .ok (acc, st1) => .ok (acc.flatten, st1)

/-- `tamp.decompressor.decompress(data)` with no caller dictionary. -/
def decompress (data : List Nat) : Except TampError (List Nat) :=
  match decompressorInit data none with
  | .error e => .error e
  | .ok st =>
    match st.read (-1) with
    | .error e => .error e
    | .ok (out, _) => .ok out

/-! ## Concrete inputs used by the theorems -/

/-- `b"foo foo foo"`. -/
def fooData : List Nat := [0x66, 0x6f, 0x6f, 0x20, 0x66, 0x6f, 0x6f, 0x20, 0x66, 0x6f, 0x6f]

/-- The nine bytes the compressor actually produces for `b"foo foo foo"`
with `window=10, literal=8, v2=False` (also the repo's own golden vector in
tests/test_compressor.py::test_compressor_default). -/
def fooCompressed : List Nat := [0x58, 0xB3, 0x04, 0x1C, 0x81, 0x00, 0x03, 0x00, 0x00]

/-- `b"Q" * 31`: a run that the v2 compressor encodes with an RLE token. -/
def q31 : List Nat := List.replicate 31 0x51

/-- `b"Qb" * 16 ++ b"cd"`: triggers an extended match token
(`b"Qb" * 8`, 16 bytes, matched at window index 0). -/
def qbData : List Nat := (List.replicate 16 [0x51, 0x62]).flatten ++ [0x63, 0x64]

/-- `b"Qb" * 16 ++ b"cdfghjklmpquvwxyz"`: during `write`, the step after the
extended match ends emits the pending token without consuming anything,
leaving the 16-byte staging buffer full. -/
def qbEvictData : List Nat :=
  (List.replicate 16 [0x51, 0x62]).flatten ++
  [0x63, 0x64, 0x66, 0x67, 0x68, 0x6a, 0x6b, 0x6c, 0x6d, 0x70, 0x71, 0x75, 0x76, 0x77, 0x78,
   0x79, 0x7a]

/-- `decompress(compress(data, ...))`. -/
def roundtrip (data : List Nat) (window literal : Nat) (v2 : Bool) :
    Except TampError (List Nat) :=
  match compress data window literal v2 with
  | .error e => .error e
  | .ok c => decompress c

/-! ## Claim theorems -/

set_option maxRecDepth 20000

/-- Claim C1.  The round-trip `decompress (compress x)` fails on the code:
for `x = b"Q" * 31` (window 10, literal 8, default extended mode), the
compressed stream decompresses to `b"Q" * 16`, not back to `x`: the RLE
token is written with `count - 1` and 2 trailing raw bits while the
decompressor reads a flagless Huffman code, 4 trailing raw bits and adds 2.
The claim itself states the intended behaviour, which the repository's own
round-trip tests assert; the compressor's v2 token writers are the slip. -/
theorem c1_roundtrip_fails_on_rle :
    roundtrip q31 10 8 true = .ok (List.replicate 16 0x51) ∧
    List.replicate 16 0x51 ≠ q31 := by
  constructor
  · rfl
  · decide

/-- Claim C2.  On an input that produces an extended-match token
(`b"Qb"*16 ++ b"cd"`, window 10, literal 8, v2), the compressor's sequence
of bit-writer calls shows Huffman code 13 (entry `(39, 7)`), then
immediately the 10-bit window index (entry `(0, 10)`), and only later the
extended length field (entry `(2, 6)`): the compressor emits the index
before the extended length code, contradicting the claimed field order
(which the decompressor does use). -/
theorem c2_compressor_emits_index_before_length :
    (compressFinal qbData 10 8 true).map (fun st => st.writer.log) =
      .ok [(2, 3), (3, 2), (0, 1), (1, 1), (0, 1), (337, 9), (354, 9), (0, 2), (0, 10),
           (8, 5), (0, 10), (38, 7), (0, 10), (39, 7), (0, 10), (2, 6), (355, 9), (356, 9)] := by
  rfl

/-- Claim C3.  The compressor's extension encodings diverge from the claim:
for `b"Q"*31` the RLE token is written as Huffman 12 (`(170, 9)`) followed
by the full (flag-included) Huffman code of `v >> 4` (`(3, 3)`, three bits)
and only 2 raw trailing bits (`(1, 2)`), with `v = 29 = count - 1` — the
claim requires the flagless code, `K = 4` raw bits and `v = count - 2`.
For the extended match of `b"Qb"*16 ++ b"cd"` the extra length is written
as one plain 6-bit field (`(2, 6)`) instead of a Huffman code plus `K = 3`
raw bits.  (The decompressor does decode the claimed format.) -/
theorem c3_extension_encodings_diverge :
    (compressFinal q31 10 8 true).map (fun st => st.writer.log) =
      .ok [(2, 3), (3, 2), (0, 1), (1, 1), (0, 1), (337, 9), (170, 9), (3, 3), (1, 2)] ∧
    (compressFinal qbData 10 8 true).map (fun st => st.writer.log.drop 13) =
      .ok [(39, 7), (0, 10), (2, 6), (355, 9), (356, 9)] := by
  constructor
  · rfl
  · rfl

/-- Claim C4 (counterexample).  Compressing `b"foo foo foo"` with
window 10, literal 8, extended disabled does not produce the ten claimed
bytes: the output is nine bytes long (66 data bits plus 6 zero pad bits);
the claimed vector has a spurious trailing `0x00`. -/
theorem c4_ten_byte_vector_is_wrong :
    compress fooData 10 8 false = .ok fooCompressed ∧
    fooCompressed ≠ [0x58, 0xB3, 0x04, 0x1C, 0x81, 0x00, 0x03, 0x00, 0x00, 0x00] := by
  constructor
  · rfl
  · decide

/-- Claim C4 (amended).  Compressing `b"foo foo foo"` with window 10,
literal 8, extended disabled produces exactly the nine bytes
`0x58 0xB3 0x04 0x1C 0x81 0x00 0x03 0x00 0x00` (the repository's own golden
test vector), and decompressing them yields `b"foo foo foo"` again. -/
theorem c4_amended_nine_byte_vector :
    compress fooData 10 8 false = .ok fooCompressed ∧
    decompress fooCompressed = .ok fooData := by
  constructor
  · rfl
  · rfl

/-- Claim C5.  With the source's configuration flags
(`_USE_MATCH_EXTENSION_HUFFMAN = False`, `_MATCH_EXTENSION_BITS = 6`) the
v2 `max_pattern_size` is `min_pattern_size + 11 + 2^6 = min_pattern_size +
75`, not `min_pattern_size + 123` as claimed: at `window=10, literal=8`
(`min_pattern_size = 2`) the code computes 77 where the claim says 125.
The non-extended value `min_pattern_size + 13` does match.  The claimed
`+123` is what the in-repo decompressor can decode
(`(13 << 3) + 7 + min + 12`), so the compressor's constants are the slip. -/
theorem c5_max_pattern_size_is_75_over_min :
    (compressorInit 10 8 none false true).map
        (fun st => (st.minPatternSize, st.maxPatternSize)) = .ok (2, 77) ∧
    (compressorInit 10 8 none false false).map
        (fun st => (st.minPatternSize, st.maxPatternSize)) = .ok (2, 15) ∧
    (77 : Nat) ≠ 2 + 123 := by
  refine ⟨rfl, rfl, by decide⟩

/-- Claim C7 (counterexample).  A caller dictionary whose length differs
from `2^window_bits` is not rejected: the compressor accepts a 200-byte
dictionary for `window=8` (since `bit_size(199) = 8`), and the decompressor
accepts a 3-byte dictionary for a header declaring `window_bits = 8` with
the dictionary flag set (it never checks the length). -/
theorem c7_wrong_size_dictionaries_accepted :
    (compressorInit 8 8 (some (List.replicate 200 0)) false true).isOk = true ∧
    (decompressorInit [0x14, 0xAA] (some [1, 2, 3])).isOk = true := by
  constructor
  · rfl
  · rfl

/-- Claim C8.  A step performed on a full 16-byte staging buffer can
consume nothing: on `b"Qb"*16 ++ b"cdfghjklmpquvwxyz"` (window 10, literal
8, v2) the sixth full-buffer step emits the pending extended match without
consuming a byte (trace entry `(16, 16)`), and the following `append` on
the full `deque(maxlen=16)` then evicts the pending byte `b"c"` (0x63),
which is never encoded — contradicting the claim (and losing data, which
the repository's round-trip tests forbid). -/
theorem c8_full_buffer_step_consumes_nothing :
    (writeOnlyFinal qbEvictData 10 8 true).map (fun st => (st.stepTrace, st.evicted)) =
      .ok ([(16, 15), (16, 15), (16, 14), (16, 12), (16, 8), (16, 0), (16, 16), (16, 15)],
           [0x63]) := by
  rfl

/-- Claim C6 (counterexample).  The stream `0x18 0x55 0x00 0x00` has header
`window_bits=8, literal_bits=8, extended=0` followed by a token with
Huffman index 12; decompression succeeds (returning the first 14 bytes of
the pre-initialized dictionary, a match of length `12 + min_pattern_size`)
instead of raising any error. -/
theorem c6_huffman12_not_rejected :
    decompress [0x18, 0x55, 0x00, 0x00] =
      .ok [0, 46, 47, 47, 114, 46, 48, 46, 32, 116, 62, 10, 47, 62] := by
  rfl

/-- Claim C6 (amended).  When the stream's extended flag is 0, a decoded
Huffman index of 12 or 13 is not an error: the decompressor falls through
to the ordinary-match branch, reading `window_bits` index bits and
producing a match of length `index + min_pattern_size`. -/
theorem c6_amended_plain_match (st : DecompState) (r2 : BitReader) (ms : Nat)
    (hext : st.extended = false) (hms : ms = 12 ∨ ms = 13) :
    st.decodeMatchPart r2 ms =
      match BitReader.read st.windowBits r2 with
      | (.error .eofError, r3) => (.ok .eofBreak, { st with reader := r3.exitErr })
      | (.error e, r3) => (.error e, { st with reader := r3.exitErr })
      | (.ok index, r3) =>
        (.ok (.tokenOut (st.window.getRange index (ms + st.minPatternSize))),
         { st with reader := r3.exitOk,
                   window := st.window.writeBytes
                     (st.window.getRange index (ms + st.minPatternSize)) }) := by
  have h14 : ms ≠ FLUSH := by rcases hms with h | h <;> simp [h, FLUSH]
  simp only [DecompState.decodeMatchPart, hext, h14, if_false, Bool.false_eq_true,
    false_and, if_neg (fun h => h14 h)]

/-- The concrete state used to instantiate `c6_amended_plain_match`. -/
def c6State : DecompState :=
  { windowBits := 4, literalBits := 8, extended := false, minPatternSize := 2,
    window := { buffer := [10, 11, 12, 13, 14, 15, 16, 17, 18, 19, 20, 21, 22, 23, 24, 25],
                pos := 0 },
    overflow := [],
    reader := { buffer := 0, bitPos := 0, backupBuffer := none, backupBitPos := none,
                src := [] } }

/-- Witness for `c6_amended_plain_match` at a concrete state: Huffman index
12 with extended flag 0 decodes as a 14-byte match at index 0. -/
theorem c6_amended_plain_match_witness :
    c6State.decodeMatchPart
        { buffer := 0, bitPos := 0, backupBuffer := none, backupBitPos := none, src := [0] }
        12 =
      (.ok (.tokenOut [10, 11, 12, 13, 14, 15, 16, 17, 18, 19, 20, 21, 22, 23]),
       { c6State with
           reader := { buffer := 0, bitPos := 4, backupBuffer := none, backupBitPos := none,
                       src := [] },
           window := { buffer := [10, 11, 12, 13, 14, 15, 16, 17, 18, 19, 20, 21, 22, 23, 24,
                                  25],
                       pos := 14 } }) := by
  rw [c6_amended_plain_match c6State
    { buffer := 0, bitPos := 0, backupBuffer := none, backupBitPos := none, src := [0] }
    12 rfl (Or.inl rfl)]
  rfl

/-- Claim C7 (amended).  The compressor accepts a nonempty caller
dictionary exactly when `bit_size(len - 1) = window` (in particular, length
exactly `2^window` is accepted, but so is any length in
`(2^(window-1), 2^window]`), and rejects it with `ValueError` otherwise;
the decompressor's constructor never inspects the dictionary's length, so
its success does not depend on which dictionary is supplied. -/
theorem c7_amended_dictionary_checks :
    (∀ w l d lz v2 m, computeMinPatternSize w l = .ok m →
        ((compressorInit w l (some d) lz v2).isOk = true ↔
          d = [] ∨ bitSize (d.length - 1) = (w : Int))) ∧
    (∀ src d d', (decompressorInit src (some d)).isOk =
        (decompressorInit src (some d')).isOk) := by
  constructor
  · intro w l d lz v2 m hm
    simp only [compressorInit, hm]
    by_cases hd : d = []
    · subst hd
      simp [Except.isOk, Except.toBool]
    · have hne : (!d.isEmpty) = true := by
        simp [hd]
      by_cases hb : bitSize (d.length - 1) = (w : Int)
      · simp [hne, hb, Except.isOk, Except.toBool, hd]
      · simp [hne, hb, Except.isOk, Except.toBool, hd]
  · intro src d d'
    simp only [decompressorInit]
    rcases BitReader.read 3
        { buffer := 0, bitPos := 0, backupBuffer := none, backupBitPos := none, src := src }
      with ⟨res3, r1⟩
    cases res3 with
    | error e => rfl
    | ok w =>
    dsimp only
    rcases BitReader.read 2 r1 with ⟨res2, r2⟩
    cases res2 with
    | error e => rfl
    | ok l =>
    dsimp only
    rcases BitReader.read 1 r2 with ⟨resc, r3⟩
    cases resc with
    | error e => rfl
    | ok uc =>
    dsimp only
    rcases BitReader.read 1 r3 with ⟨rese, r4⟩
    cases rese with
    | error e => rfl
    | ok ext =>
    dsimp only
    rcases BitReader.read 1 r4 with ⟨resm, r5⟩
    cases resm with
    | error e => rfl
    | ok more =>
    dsimp only
    by_cases hmore : more ≠ 0
    · simp [hmore]
    · simp only [hmore, if_false]
      have hcd : ¬(uc ≠ 0 ∧ (some d : Option (List Nat)) = none) := by simp
      have hcd' : ¬(uc ≠ 0 ∧ (some d' : Option (List Nat)) = none) := by simp
      simp only [hcd, hcd', if_false]
      rcases computeMinPatternSize (w + 8) (l + 5) with e | mp <;> rfl

/-- Witness for `c7_amended_dictionary_checks`: a dictionary of length
exactly `2^8 = 256` is accepted at `window = 8`. -/
theorem c7_amended_witness :
    (compressorInit 8 8 (some (List.replicate 256 0)) false true).isOk = true :=
  (c7_amended_dictionary_checks.1 8 8 (List.replicate 256 0) false true 2 rfl).mpr
    (Or.inr (by decide))

/-! ## C10: `Decompressor.read(size)` with positive `size` -/

/-- Loop invariant of `readintoLoop`: `bytes_written` stays equal to the
length of the written prefix and never exceeds the capacity. -/
theorem readintoLoop_length_invariant :
    ∀ (fuel : Nat) (st : DecompState) (cap bw : Nat) (buf : List Nat),
      bw = buf.length → bw ≤ cap →
      ∀ res, readintoLoop fuel st cap bw buf = .ok res →
        res.1 = res.2.1.length ∧ res.1 ≤ cap := by
  intro fuel
  induction fuel with
  | zero =>
    intro st cap bw buf hlen hle res hres
    simp only [readintoLoop] at hres
    cases hres
    exact ⟨hlen, hle⟩
  | succ n ih =>
    intro st cap bw buf hlen hle res hres
    simp only [readintoLoop] at hres
    by_cases hbw : bw < cap
    · rw [if_pos hbw] at hres
      rcases hdec : st.decodeOneToken with ⟨e | tok, st1⟩ <;> rw [hdec] at hres
      · cases hres
      · cases tok with
        | eofBreak =>
          simp only at hres
          cases hres
          exact ⟨hlen, hle⟩
        | flushCont =>
          exact ih st1 cap bw buf hlen hle res hres
        | tokenOut string =>
          simp only at hres
          by_cases htb : min (cap - bw) string.length < string.length
          · rw [if_pos htb] at hres
            cases hres
            constructor
            · simp only [List.length_append, List.length_take]
              omega
            · simp only
              omega
          · rw [if_neg htb] at hres
            refine ih st1 cap _ _ ?_ ?_ res hres
            · simp only [List.length_append, List.length_take]
              omega
            · omega
    · rw [if_neg hbw] at hres
      cases hres
      exact ⟨hlen, hle⟩

/-- `readinto` on a fresh buffer of capacity `cap` returns a written prefix
whose length is the returned count, which is at most `cap`. -/
theorem readinto_length_invariant (st : DecompState) (cap : Nat) :
    ∀ res, st.readinto cap = .ok res → res.1 = res.2.1.length ∧ res.1 ≤ cap := by
  intro res hres
  simp only [DecompState.readinto] at hres
  by_cases hov : cap < st.overflow.length
  · rw [if_pos hov] at hres
    cases hres
    constructor
    · simp only [List.length_take]
      omega
    · simp
  · rw [if_neg hov] at hres
    by_cases hne : st.overflow.isEmpty
    · rw [hne] at hres
      simp only [Bool.not_true, Bool.false_eq_true, if_false] at hres
      exact readintoLoop_length_invariant st.loopFuel st cap 0 [] rfl (Nat.zero_le _) res hres
    · have hb : (!st.overflow.isEmpty) = true := by simp [hne]
      rw [hb] at hres
      simp only [if_true] at hres
      exact readintoLoop_length_invariant st.loopFuel { st with overflow := [] } cap
        st.overflow.length st.overflow rfl (by omega) res hres

/-- One iteration of the chunk loop of `read` when `size` is positive. -/
theorem readLoop_succ_pos (fuel : Nat) (st : DecompState) (size : Int) (chunk : Nat)
    (acc : List (List Nat)) (hs : 0 < size) :
    DecompState.readLoop (fuel + 1) st size chunk acc =
      match st.readinto size.toNat with
      | .error e => .error e
      | .ok (rs, filled, st1) =>
        .ok (acc ++ [filled ++ List.replicate (size.toNat - rs) 0], st1) := by
  have hneg : ¬ size < 0 := by omega
  simp only [DecompState.readLoop, hneg, if_false, hs, if_true]

/-- Claim C10.  For positive `size`, a successful `Decompressor.read(size)`
returns a buffer of length exactly `size`: it is the `readinto` written
prefix padded at the end with zero bytes (the untouched remainder of the
fresh `bytearray(size)`), never shortened to the number of bytes actually
decoded. -/
theorem c10_read_returns_exact_size (st : DecompState) (size : Int) (h : 0 < size)
    (out : List Nat) (st' : DecompState)
    (hr : st.read size = .ok (out, st')) :
    out.length = size.toNat ∧
    ∃ c w st2, st.readinto size.toNat = .ok (c, w, st2) ∧ c ≤ size.toNat ∧ w.length = c ∧
      out = w ++ List.replicate (size.toNat - c) 0 := by
  have hsz : size ≠ 0 := by omega
  simp only [DecompState.read, hsz, if_false] at hr
  rw [show st.reader.src.length + 2 = (st.reader.src.length + 1) + 1 from rfl,
      readLoop_succ_pos _ _ _ _ _ h] at hr
  rcases hri : st.readinto size.toNat with e | ⟨c, w, st2⟩ <;> rw [hri] at hr
  · cases hr
  · obtain ⟨hcw, hcc⟩ := readinto_length_invariant st size.toNat _ hri
    simp only at hcw hcc
    simp only [List.flatten, List.append_nil, List.nil_append] at hr
    cases hr
    refine ⟨?_, c, w, st', rfl, hcc, hcw.symm, rfl⟩
    simp only [List.length_append, List.length_replicate]
    omega

/-- The decompressor state for the witness of `c10_read_returns_exact_size`
(stream `0x18 0x55 0x00 0x00`: one 14-byte match behind a 4-byte read). -/
def c10State : DecompState :=
  match decompressorInit [0x18, 0x55, 0x00, 0x00] none with
  | .ok st => st
  | .error _ => c6State

/-- The output of `c10State.read 4`. -/
def c10Out : List Nat :=
  match c10State.read 4 with
  | .ok (o, _) => o
  | .error _ => []

/-- The state after `c10State.read 4`. -/
def c10After : DecompState :=
  match c10State.read 4 with
  | .ok (_, s) => s
  | .error _ => c10State

/-- Witness for `c10_read_returns_exact_size`: reading 4 bytes from a
stream whose first token expands to 14 bytes returns exactly 4 bytes. -/
theorem c10_read_returns_exact_size_witness :
    (0 : Int) < 4 ∧ c10Out.length = (4 : Int).toNat :=
  ⟨by decide,
   (c10_read_returns_exact_size c10State 4 (by decide) c10Out c10After (by rfl)).1⟩

/-! ## C9: fragmented input resumes exactly (transactional bit reader)

The development proves that when the byte source runs dry mid-token, the
rolled-back decompressor state, once more bytes become available, decodes
exactly what an uninterrupted run would have decoded.

The proof factors the bit reader through an abstract reader: a list of
pending bits (MSB first) plus the list of source bytes not yet pulled into
the bit accumulator.  A well-formed concrete reader is the canonical
encoding of its abstract reader; all bit-accumulator arithmetic is
confined to the correspondence lemmas. -/

/-- The value of a bit string, most significant bit first. -/
def bitsVal : List Bool → Nat
  | [] => 0
  | b :: t => b.toNat * 2 ^ t.length + bitsVal t

/-- The low `w` bits of `v`, most significant first. -/
def natBits : Nat → Nat → List Bool
  | 0, _ => []
  | w + 1, v => v.testBit w :: natBits w v

/-- The 8 bits of a byte, most significant first. -/
def byteBits (b : Nat) : List Bool := natBits 8 b

/-- The bit stream of a byte string. -/
def bytesBits (l : List Nat) : List Bool := (l.map byteBits).flatten

/-- Every element is a byte value. -/
def bytesOk (l : List Nat) : Prop := ∀ b ∈ l, b < 256

theorem bitsVal_lt (l : List Bool) : bitsVal l < 2 ^ l.length := by
  induction l with
  | nil => simp [bitsVal]
  | cons b t ih =>
    simp only [bitsVal, List.length_cons, pow_succ]
    cases b <;> simp only [Bool.toNat_true, Bool.toNat_false] <;> omega

theorem bitsVal_append (x y : List Bool) :
    bitsVal (x ++ y) = bitsVal x * 2 ^ y.length + bitsVal y := by
  induction x with
  | nil => simp [bitsVal]
  | cons b t ih =>
    simp only [List.cons_append, bitsVal, List.length_append, pow_add, List.append_eq, ih]
    ring

theorem natBits_length (w v : Nat) : (natBits w v).length = w := by
  induction w generalizing v with
  | zero => rfl
  | succ w ih => simp [natBits, ih]

theorem bitsVal_natBits (w v : Nat) : bitsVal (natBits w v) = v % 2 ^ w := by
  induction w generalizing v with
  | zero => simp [natBits, bitsVal, Nat.mod_one]
  | succ w ih =>
    simp only [natBits, bitsVal, natBits_length, ih, Nat.testBit_to_div_mod]
    rw [pow_succ, Nat.mod_mul]
    rcases Nat.mod_two_eq_zero_or_one (v / 2 ^ w) with h | h <;> simp [h] <;> omega

/-- Disjoint bitwise or is addition: `a * 2^k ||| b = a * 2^k + b` when
`b < 2^k`. -/
theorem mul_pow_or_eq_add {k : Nat} : ∀ {a b : Nat}, b < 2 ^ k → a * 2 ^ k ||| b = a * 2 ^ k + b := by
  induction k with
  | zero =>
    intro a b h
    have hb : b = 0 := by simpa using h
    subst hb
    simp
  | succ k ih =>
    intro a b h
    have h2 : (2 : Nat) ^ (k + 1) = 2 ^ k * 2 := pow_succ 2 k
    have hx : a * 2 ^ (k + 1) = a * 2 ^ k * 2 := by rw [h2]; ring
    have hb2 : b / 2 < 2 ^ k := by omega
    have hdiv : a * 2 ^ (k + 1) / 2 = a * 2 ^ k := by rw [hx]; omega
    have hx2 : a * 2 ^ (k + 1) % 2 = 0 := by rw [hx]; omega
    have hor2 : (a * 2 ^ (k + 1) ||| b) % 2 = b % 2 := by
      have h1 := Nat.or_mod_two_eq_one (a := a * 2 ^ (k + 1)) (b := b)
      have ha := Nat.mod_two_eq_zero_or_one (a * 2 ^ (k + 1) ||| b)
      have hbb := Nat.mod_two_eq_zero_or_one b
      omega
    have hord : (a * 2 ^ (k + 1) ||| b) / 2 = a * 2 ^ k + b / 2 := by
      rw [Nat.or_div_two, hdiv, ih hb2]
    have := Nat.div_add_mod (a * 2 ^ (k + 1) ||| b) 2
    omega

/-- The abstract bit reader: the bits pending in the accumulator (MSB
first) and the source bytes not yet pulled in. -/
structure AReader where
  pend : List Bool
  src : List Nat
deriving DecidableEq, Repr

/-- Abstract mirror of `BitReader.fetchLoop`: move whole bytes from the
source onto the end of the pending bits until `numBits` are pending. -/
def aFetchLoop : Nat → Nat → AReader → Except TampError Unit × AReader
  | 0, _, a => (.ok (), a)
  | fuel + 1, numBits, a =>
    if a.pend.length < numBits then
      match a.src with
      | [] => (.error .eofError, a)
      | b :: rest => aFetchLoop fuel numBits ⟨a.pend ++ byteBits b, rest⟩
    else (.ok (), a)

/-- Abstract mirror of `BitReader.read`. -/
def aRead (numBits : Nat) (a : AReader) : Except TampError Nat × AReader :=
  match aFetchLoop (numBits + 8) numBits a with
  | (.error e, a1) => (.error e, a1)
  | (.ok _, a1) => (.ok (bitsVal (a1.pend.take numBits)), ⟨a1.pend.drop numBits, a1.src⟩)

/-- Abstract mirror of `BitReader.readHuffmanAux`. -/
def aHuffmanAux : Nat → Nat → AReader → Except TampError Nat × AReader
  | 0, _, a => (.error .runtimeError, a)
  | fuel + 1, proposed, a =>
    match aRead 1 a with
    | (.error e, a1) => (.error e, a1)
    | (.ok bit, a1) =>
      let p := proposed ||| bit
      match huffmanLookup p with
      | some v => (.ok v, a1)
      | none => aHuffmanAux fuel (p <<< 1) a1

def aHuffman (a : AReader) : Except TampError Nat × AReader := aHuffmanAux 8 0 a

/-- The abstract reader produced by the transactional rollback
(`__exit__` with an exception): the pending bits at transaction entry plus
the bits of every byte fetched during it. -/
def aRollState (enter cur : AReader) : AReader :=
  ⟨enter.pend ++ bytesBits (enter.src.take (enter.src.length - cur.src.length)), cur.src⟩

/-- `extA a e`: the same reader with `e` appended to its byte source
(more input became available). -/
def extA (a : AReader) (e : List Nat) : AReader := ⟨a.pend, a.src ++ e⟩

/-- `flushA a e`: the reader with its whole byte source absorbed into the
pending bits (as after a rollback that drained the source) and `e` as the
new source. -/
def flushA (a : AReader) (e : List Nat) : AReader := ⟨a.pend ++ bytesBits a.src, e⟩

theorem bytesBits_append (x y : List Nat) :
    bytesBits (x ++ y) = bytesBits x ++ bytesBits y := by
  simp [bytesBits]

theorem bytesBits_length (x : List Nat) : (bytesBits x).length = 8 * x.length := by
  induction x with
  | nil => simp [bytesBits]
  | cons c t ih =>
    simp only [bytesBits, List.map_cons, List.flatten_cons, List.length_append] at ih ⊢
    simp [byteBits, natBits_length, ih]
    omega

/-- Fuel does not matter for `aFetchLoop` once it covers the bits to be
fetched. -/
theorem aFetchLoop_stable :
    ∀ (f g n : Nat) (a : AReader), n ≤ a.pend.length + 8 * f → n ≤ a.pend.length + 8 * g →
      aFetchLoop f n a = aFetchLoop g n a := by
  intro f
  induction f with
  | zero =>
    intro g n a hf hg
    have hle : ¬ a.pend.length < n := by omega
    cases g with
    | zero => rfl
    | succ g => simp [aFetchLoop, hle]
  | succ f ih =>
    intro g n a hf hg
    by_cases hlt : a.pend.length < n
    · cases g with
      | zero => omega
      | succ g =>
        simp only [aFetchLoop, hlt, if_true]
        cases hsrc : a.src with
        | nil => rfl
        | cons b rest =>
          apply ih
          · simp [byteBits, natBits_length]
            omega
          · simp [byteBits, natBits_length]
            omega
    · cases g with
      | zero => simp [aFetchLoop, hlt]
      | succ g => simp [aFetchLoop, hlt]

/-- Reading at most the pending bits: no byte is fetched. -/
theorem aRead_of_le_pend (n : Nat) (a : AReader) (h : n ≤ a.pend.length) :
    aRead n a = (.ok (bitsVal (a.pend.take n)), ⟨a.pend.drop n, a.src⟩) := by
  have hle : ¬ a.pend.length < n := by omega
  simp [aRead, aFetchLoop, hle]

/-- When the pending bits do not cover the read, the head byte is fetched
first. -/
theorem aRead_cons_src (n : Nat) (p : List Bool) (c : Nat) (s : List Nat)
    (h : p.length < n) :
    aRead n ⟨p, c :: s⟩ = aRead n ⟨p ++ byteBits c, s⟩ := by
  simp only [aRead]
  have hstep : aFetchLoop (n + 8) n ⟨p, c :: s⟩ = aFetchLoop (n + 7) n ⟨p ++ byteBits c, s⟩ := by
    have : n + 8 = (n + 7) + 1 := rfl
    rw [this]
    simp [aFetchLoop, h]
  rw [hstep, aFetchLoop_stable (n + 7) (n + 8) n ⟨p ++ byteBits c, s⟩ (by
      simp only [List.length_append, byteBits, natBits_length]
      omega)
    (by
      simp only [List.length_append, byteBits, natBits_length]
      omega)]

/-- Reading past the whole stream: `EOFError`, with every source byte
absorbed into the pending bits. -/
theorem aRead_eof (n : Nat) :
    ∀ (p : List Bool) (s : List Nat), p.length + 8 * s.length < n →
      aRead n ⟨p, s⟩ = (.error .eofError, ⟨p ++ bytesBits s, []⟩) := by
  intro p s
  induction s generalizing p with
  | nil =>
    intro h
    have hlt : p.length < n := by omega
    simp [aRead, aFetchLoop, hlt, bytesBits]
  | cons c rest ih =>
    intro h
    have hlt : p.length < n := by
      simp only [List.length_cons] at h
      omega
    rw [aRead_cons_src n p c rest hlt]
    rw [ih (p ++ byteBits c) (by
      simp only [List.length_append, byteBits, natBits_length, List.length_cons] at h ⊢
      omega)]
    simp [bytesBits, byteBits, List.append_assoc]

/-- Closed form of a successful `aRead`: some prefix `moved` of the source
is fetched (lazily: all but possibly the last byte were needed), and the
read splits the pending bits. -/
theorem aRead_ok_closed (n : Nat) :
    ∀ (p : List Bool) (s : List Nat) (v : Nat) (a' : AReader),
      aRead n ⟨p, s⟩ = (.ok v, a') →
      ∃ moved, s = moved ++ a'.src ∧ n ≤ p.length + 8 * moved.length ∧
        (moved = [] ∧ n ≤ p.length ∨ p.length + 8 * (moved.length - 1) < n) ∧
        v = bitsVal ((p ++ bytesBits moved).take n) ∧
        a'.pend = (p ++ bytesBits moved).drop n := by
  intro p s
  induction s generalizing p with
  | nil =>
    intro v a' hr
    by_cases hle : n ≤ p.length
    · rw [aRead_of_le_pend n ⟨p, []⟩ hle] at hr
      cases hr
      exact ⟨[], by simp, by omega, Or.inl ⟨rfl, hle⟩, by simp [bytesBits], by simp [bytesBits]⟩
    · rw [aRead_eof n p [] (by simp; omega)] at hr
      cases hr
  | cons c rest ih =>
    intro v a' hr
    by_cases hle : n ≤ p.length
    · rw [aRead_of_le_pend n ⟨p, c :: rest⟩ hle] at hr
      cases hr
      exact ⟨[], by simp, by omega, Or.inl ⟨rfl, hle⟩, by simp [bytesBits], by simp [bytesBits]⟩
    · have hlt : p.length < n := by omega
      rw [aRead_cons_src n p c rest hlt] at hr
      obtain ⟨moved, hs, hn, hlazy, hv, hp⟩ := ih (p ++ byteBits c) v a' hr
      refine ⟨c :: moved, by simp [hs], ?_, ?_, ?_, ?_⟩
      · simp only [List.length_append, byteBits, natBits_length, List.length_cons] at hn ⊢
        omega
      · right
        rcases hlazy with ⟨hm, hle'⟩ | hbound
        · subst hm
          simp only [List.length_append, byteBits, natBits_length] at hle'
          simp only [List.length_cons, List.length_nil]
          omega
        · simp only [List.length_append, byteBits, natBits_length, List.length_cons] at hbound ⊢
          omega
      · rw [hv]
        simp [bytesBits, byteBits, List.append_assoc]
      · rw [hp]
        simp [bytesBits, byteBits, List.append_assoc]

/-- Appending bytes to the source does not change a successful read. -/
theorem aRead_src_frame (n : Nat) :
    ∀ (p : List Bool) (s : List Nat) (e : List Nat) (v : Nat) (a' : AReader),
      aRead n ⟨p, s⟩ = (.ok v, a') →
      aRead n ⟨p, s ++ e⟩ = (.ok v, ⟨a'.pend, a'.src ++ e⟩) := by
  intro p s
  induction s generalizing p with
  | nil =>
    intro e v a' hr
    by_cases hle : n ≤ p.length
    · rw [aRead_of_le_pend n ⟨p, []⟩ hle] at hr
      cases hr
      rw [List.nil_append, aRead_of_le_pend n ⟨p, e⟩ hle]
    · rw [aRead_eof n p [] (by simp only [List.length_nil]; omega)] at hr
      cases hr
  | cons c rest ih =>
    intro e v a' hr
    by_cases hle : n ≤ p.length
    · rw [aRead_of_le_pend n ⟨p, c :: rest⟩ hle] at hr
      cases hr
      rw [aRead_of_le_pend n ⟨p, c :: rest ++ e⟩ hle]
    · have hlt : p.length < n := by omega
      rw [aRead_cons_src n p c rest hlt] at hr
      rw [List.cons_append, aRead_cons_src n p c (rest ++ e) hlt]
      exact ih (p ++ byteBits c) e v a' hr

/-- A read within the stream's length succeeds. -/
theorem aRead_isOk (n : Nat) :
    ∀ (p : List Bool) (s : List Nat), n ≤ p.length + 8 * s.length →
      ∃ v a', aRead n ⟨p, s⟩ = (.ok v, a') := by
  intro p s
  induction s generalizing p with
  | nil =>
    intro h
    have hle : n ≤ p.length := by simp only [List.length_nil] at h; omega
    exact ⟨_, _, aRead_of_le_pend n ⟨p, []⟩ hle⟩
  | cons c rest ih =>
    intro h
    by_cases hle : n ≤ p.length
    · exact ⟨_, _, aRead_of_le_pend n ⟨p, c :: rest⟩ hle⟩
    · have hlt : p.length < n := by omega
      rw [aRead_cons_src n p c rest hlt]
      refine ih (p ++ byteBits c) ?_
      simp only [List.length_append, byteBits, natBits_length, List.length_cons] at h ⊢
      omega

/-- When the whole byte list `m` is needed, reading from `⟨p, m ++ e⟩` is
reading from `⟨p ++ bits m, e⟩`. -/
theorem aRead_moveall (n : Nat) :
    ∀ (m : List Nat) (p : List Bool) (e : List Nat), p.length + 8 * m.length < n + 8 →
      aRead n ⟨p, m ++ e⟩ = aRead n ⟨p ++ bytesBits m, e⟩ := by
  intro m
  induction m with
  | nil =>
    intro p e h
    simp [bytesBits]
  | cons c rest ih =>
    intro p e h
    have hlt : p.length < n := by
      simp only [List.length_cons] at h
      omega
    rw [List.cons_append, aRead_cons_src n p c (rest ++ e) hlt, ih (p ++ byteBits c) e (by
      simp only [List.length_append, byteBits, natBits_length, List.length_cons] at h ⊢
      omega)]
    simp [bytesBits, byteBits, List.append_assoc]

/-- Reading from the flushed-ahead reader gives the same value, and keeps
the flush relation. -/
theorem aRead_flush_ok (n : Nat) (p : List Bool) (s e : List Nat) (v : Nat) (a' : AReader)
    (h : aRead n ⟨p, s⟩ = (.ok v, a')) :
    aRead n ⟨p ++ bytesBits s, e⟩ = (.ok v, ⟨a'.pend ++ bytesBits a'.src, e⟩) := by
  obtain ⟨moved, hs, hn, _, hv, hp⟩ := aRead_ok_closed n p s v a' h
  have hsplit : bytesBits s = bytesBits moved ++ bytesBits a'.src := by
    rw [hs, bytesBits_append]
  have hlenm : n ≤ (p ++ bytesBits moved).length := by
    simp only [List.length_append, bytesBits_length]
    omega
  rw [hsplit, ← List.append_assoc]
  rw [aRead_of_le_pend n ⟨p ++ bytesBits moved ++ bytesBits a'.src, e⟩ (by
    simp only [List.length_append] at hlenm ⊢
    omega)]
  rw [List.take_append_of_le_length hlenm, List.drop_append_of_le_length hlenm]
  rw [hv, hp]

/-- If a read hits the end of the whole stream, then reading with the
source extended is the same from the rolled-ahead reader and from the
original one. -/
theorem aRead_trip_eof (n : Nat) (p : List Bool) (s e : List Nat)
    (h : (aRead n ⟨p, s⟩).1 = .error .eofError) :
    aRead n ⟨p, s ++ e⟩ = aRead n ⟨p ++ bytesBits s, e⟩ := by
  by_cases hle : n ≤ p.length + 8 * s.length
  · obtain ⟨v, a', hr⟩ := aRead_isOk n p s hle
    rw [hr] at h
    cases h
  · exact aRead_moveall n s p e (by omega)

/-- Laziness bound on the pending bits after a successful read. -/
theorem aRead_pend_le (n : Nat) (p : List Bool) (s : List Nat) (v : Nat) (a' : AReader)
    (h : aRead n ⟨p, s⟩ = (.ok v, a')) :
    a'.pend.length ≤ max (p.length - n) 7 := by
  obtain ⟨moved, _, hn, hlazy, _, hp⟩ := aRead_ok_closed n p s v a' h
  have hlen : a'.pend.length = p.length + 8 * moved.length - n := by
    rw [hp]
    simp only [List.length_drop, List.length_append, bytesBits_length]
  rcases hlazy with ⟨hm, hle⟩ | hbound
  · subst hm
    simp only [List.length_nil] at hlen
    omega
  · omega

/-- The source after a read is a suffix of the source before it. -/
theorem aRead_src_suffix (n : Nat) (p : List Bool) (s : List Nat) (v : Nat) (a' : AReader)
    (h : aRead n ⟨p, s⟩ = (.ok v, a')) : ∃ k, a'.src = s.drop k := by
  obtain ⟨moved, hs, _, _, _, _⟩ := aRead_ok_closed n p s v a' h
  exact ⟨moved.length, by rw [hs, List.drop_left]⟩

/-- A successful read consumes exactly `n` bits of the stream. -/
theorem aRead_measure (n : Nat) (p : List Bool) (s : List Nat) (v : Nat) (a' : AReader)
    (h : aRead n ⟨p, s⟩ = (.ok v, a')) :
    a'.pend.length + 8 * a'.src.length + n = p.length + 8 * s.length := by
  obtain ⟨moved, hs, hn, _, _, hp⟩ := aRead_ok_closed n p s v a' h
  have h1 : a'.pend.length = p.length + 8 * moved.length - n := by
    rw [hp]
    simp only [List.length_drop, List.length_append, bytesBits_length]
  have h2 : s.length = moved.length + a'.src.length := by
    rw [hs, List.length_append]
  omega


theorem aFetchLoop_error (f : Nat) :
    ∀ (n : Nat) (a : AReader) (e : TampError) (a1 : AReader),
      aFetchLoop f n a = (.error e, a1) → e = .eofError := by
  induction f with
  | zero =>
    intro n a e a1 h
    simp only [aFetchLoop] at h
    injection h with h1 h2
    exact Except.noConfusion h1
  | succ f ih =>
    intro n a e a1 h
    simp only [aFetchLoop] at h
    by_cases hlt : a.pend.length < n
    · rw [if_pos hlt] at h
      cases hsrc : a.src with
      | nil =>
        rw [hsrc] at h
        injection h with h1 h2
        injection h1 with h3
        exact h3.symm
      | cons b rest =>
        rw [hsrc] at h
        exact ih n _ e a1 h
    · rw [if_neg hlt] at h
      injection h with h1 h2
      exact Except.noConfusion h1

theorem aRead_error (n : Nat) (a : AReader) (e : TampError) (a1 : AReader)
    (h : aRead n a = (.error e, a1)) : e = .eofError := by
  simp only [aRead] at h
  rcases hf : aFetchLoop (n + 8) n a with ⟨res, a2⟩
  rw [hf] at h
  cases res with
  | error e2 =>
    simp only at h
    injection h with h1 h2
    injection h1 with h3
    subst h3
    exact aFetchLoop_error _ _ _ _ _ hf
  | ok u =>
    simp only at h
    injection h with h1 h2
    exact Except.noConfusion h1

/-- Monotone form of the laziness bound. -/
theorem aRead_pend_le' (n : Nat) (a : AReader) (v : Nat) (a' : AReader)
    (h : aRead n a = (.ok v, a')) : a'.pend.length ≤ max a.pend.length 7 := by
  have hr : aRead n ⟨a.pend, a.src⟩ = (.ok v, a') := by
    cases a
    exact h
  have := aRead_pend_le n a.pend a.src v a' hr
  omega

theorem huffmanLookup_le (c v : Nat) (h : huffmanLookup c = some v) : v ≤ 14 := by
  unfold huffmanLookup at h
  by_cases h0 : c = 0
  case pos => rw [if_pos h0] at h; injection h with hv; omega
  rw [if_neg h0] at h
  by_cases h1 : c = 3
  case pos => rw [if_pos h1] at h; injection h with hv; omega
  rw [if_neg h1] at h
  by_cases h2 : c = 8
  case pos => rw [if_pos h2] at h; injection h with hv; omega
  rw [if_neg h2] at h
  by_cases h3 : c = 11
  case pos => rw [if_pos h3] at h; injection h with hv; omega
  rw [if_neg h3] at h
  by_cases h4 : c = 20
  case pos => rw [if_pos h4] at h; injection h with hv; omega
  rw [if_neg h4] at h
  by_cases h5 : c = 36
  case pos => rw [if_pos h5] at h; injection h with hv; omega
  rw [if_neg h5] at h
  by_cases h6 : c = 38
  case pos => rw [if_pos h6] at h; injection h with hv; omega
  rw [if_neg h6] at h
  by_cases h7 : c = 43
  case pos => rw [if_pos h7] at h; injection h with hv; omega
  rw [if_neg h7] at h
  by_cases h8 : c = 75
  case pos => rw [if_pos h8] at h; injection h with hv; omega
  rw [if_neg h8] at h
  by_cases h9 : c = 84
  case pos => rw [if_pos h9] at h; injection h with hv; omega
  rw [if_neg h9] at h
  by_cases h10 : c = 148
  case pos => rw [if_pos h10] at h; injection h with hv; omega
  rw [if_neg h10] at h
  by_cases h11 : c = 149
  case pos => rw [if_pos h11] at h; injection h with hv; omega
  rw [if_neg h11] at h
  by_cases h12 : c = 170
  case pos => rw [if_pos h12] at h; injection h with hv; omega
  rw [if_neg h12] at h
  by_cases h13 : c = 39
  case pos => rw [if_pos h13] at h; injection h with hv; omega
  rw [if_neg h13] at h
  by_cases h14 : c = 171
  case pos => rw [if_pos h14] at h; injection h with hv; omega
  rw [if_neg h14] at h
  exact Option.noConfusion h

/-- Appending source bytes does not change a Huffman decode that did not
hit end of input. -/
theorem aHuffmanAux_src_frame (f : Nat) :
    ∀ (pr : Nat) (a : AReader) (e : List Nat) (res : Except TampError Nat) (a' : AReader),
      aHuffmanAux f pr a = (res, a') → res ≠ .error .eofError →
      aHuffmanAux f pr ⟨a.pend, a.src ++ e⟩ = (res, ⟨a'.pend, a'.src ++ e⟩) := by
  induction f with
  | zero =>
    intro pr a e res a' h hne
    simp only [aHuffmanAux] at h ⊢
    injection h with h1 h2
    subst h1
    subst h2
    rfl
  | succ f ih =>
    intro pr a e res a' h hne
    rcases hr : aRead 1 a with ⟨res1, a1⟩
    cases res1 with
    | error e1 =>
      have he1 := aRead_error 1 a e1 a1 hr
      subst he1
      simp only [aHuffmanAux, hr] at h
      injection h with h1 h2
      subst h1
      exact absurd rfl hne
    | ok bit =>
      have hr' : aRead 1 ⟨a.pend, a.src⟩ = (.ok bit, a1) := by
        cases a
        exact hr
      have hframe := aRead_src_frame 1 a.pend a.src e bit a1 hr'
      rcases hlook : huffmanLookup (pr ||| bit) with _ | v
      · simp only [aHuffmanAux, hr, hlook] at h
        simp only [aHuffmanAux, hframe, hlook]
        exact ih ((pr ||| bit) <<< 1) a1 e res a' h hne
      · simp only [aHuffmanAux, hr, hlook] at h
        simp only [aHuffmanAux, hframe, hlook]
        injection h with h1 h2
        subst h1
        subst h2
        rfl

/-- The flushed-ahead reader decodes the same Huffman symbol when the
decode did not hit end of input. -/
theorem aHuffmanAux_flush_ok (f : Nat) :
    ∀ (pr : Nat) (a : AReader) (e : List Nat) (res : Except TampError Nat) (a' : AReader),
      aHuffmanAux f pr a = (res, a') → res ≠ .error .eofError →
      aHuffmanAux f pr ⟨a.pend ++ bytesBits a.src, e⟩ =
        (res, ⟨a'.pend ++ bytesBits a'.src, e⟩) := by
  induction f with
  | zero =>
    intro pr a e res a' h hne
    simp only [aHuffmanAux] at h ⊢
    injection h with h1 h2
    subst h1
    subst h2
    rfl
  | succ f ih =>
    intro pr a e res a' h hne
    rcases hr : aRead 1 a with ⟨res1, a1⟩
    cases res1 with
    | error e1 =>
      have he1 := aRead_error 1 a e1 a1 hr
      subst he1
      simp only [aHuffmanAux, hr] at h
      injection h with h1 h2
      subst h1
      exact absurd rfl hne
    | ok bit =>
      have hr' : aRead 1 ⟨a.pend, a.src⟩ = (.ok bit, a1) := by
        cases a
        exact hr
      have hflush := aRead_flush_ok 1 a.pend a.src e bit a1 hr'
      rcases hlook : huffmanLookup (pr ||| bit) with _ | v
      · simp only [aHuffmanAux, hr, hlook] at h
        simp only [aHuffmanAux, hflush, hlook]
        exact ih ((pr ||| bit) <<< 1) a1 e res a' h hne
      · simp only [aHuffmanAux, hr, hlook] at h
        simp only [aHuffmanAux, hflush, hlook]
        injection h with h1 h2
        subst h1
        subst h2
        rfl

/-- If a Huffman decode hits end of input, decoding with an extended
source agrees with first rolling the old source into pending bits. -/
theorem aHuffmanAux_trip_eof (f : Nat) :
    ∀ (pr : Nat) (p : List Bool) (s e : List Nat),
      (aHuffmanAux f pr ⟨p, s⟩).1 = .error .eofError →
      aHuffmanAux f pr ⟨p, s ++ e⟩ = aHuffmanAux f pr ⟨p ++ bytesBits s, e⟩ := by
  induction f with
  | zero =>
    intro pr p s e h
    simp only [aHuffmanAux] at h
    exact absurd h (by simp)
  | succ f ih =>
    intro pr p s e h
    rcases hr : aRead 1 ⟨p, s⟩ with ⟨res1, a1⟩
    cases res1 with
    | error e1 =>
      have he1 := aRead_error 1 _ e1 a1 hr
      subst he1
      have hcoll : aRead 1 ⟨p, s ++ e⟩ = aRead 1 ⟨p ++ bytesBits s, e⟩ :=
        aRead_trip_eof 1 p s e (by rw [hr])
      simp only [aHuffmanAux]
      rw [hcoll]
    | ok bit =>
      have hframe := aRead_src_frame 1 p s e bit a1 hr
      have hflush := aRead_flush_ok 1 p s e bit a1 hr
      rcases hlook : huffmanLookup (pr ||| bit) with _ | v
      · simp only [aHuffmanAux, hr, hlook] at h
        simp only [aHuffmanAux, hframe, hflush, hlook]
        rcases a1 with ⟨p1, s1⟩
        exact ih ((pr ||| bit) <<< 1) p1 s1 e h
      · simp only [aHuffmanAux, hr, hlook] at h
        exact absurd h (by simp)

/-- Pending-bits bound through a Huffman decode. -/
theorem aHuffmanAux_pend_le (f : Nat) :
    ∀ (pr : Nat) (a : AReader) (res : Except TampError Nat) (a' : AReader),
      aHuffmanAux f pr a = (res, a') → res ≠ .error .eofError →
      a'.pend.length ≤ max a.pend.length 7 := by
  induction f with
  | zero =>
    intro pr a res a' h hne
    simp only [aHuffmanAux] at h
    injection h with h1 h2
    subst h2
    omega
  | succ f ih =>
    intro pr a res a' h hne
    rcases hr : aRead 1 a with ⟨res1, a1⟩
    cases res1 with
    | error e1 =>
      have he1 := aRead_error 1 a e1 a1 hr
      subst he1
      simp only [aHuffmanAux, hr] at h
      injection h with h1 h2
      subst h1
      exact absurd rfl hne
    | ok bit =>
      have hle1 := aRead_pend_le' 1 a bit a1 hr
      rcases hlook : huffmanLookup (pr ||| bit) with _ | v
      · simp only [aHuffmanAux, hr, hlook] at h
        have := ih ((pr ||| bit) <<< 1) a1 res a' h hne
        omega
      · simp only [aHuffmanAux, hr, hlook] at h
        injection h with h1 h2
        subst h2
        omega

/-- A successful Huffman decode consumes at least one bit. -/
theorem aHuffmanAux_measure (f : Nat) :
    ∀ (pr : Nat) (a : AReader) (v : Nat) (a' : AReader),
      aHuffmanAux f pr a = (.ok v, a') →
      a'.pend.length + 8 * a'.src.length + 1 ≤ a.pend.length + 8 * a.src.length := by
  induction f with
  | zero =>
    intro pr a v a' h
    simp only [aHuffmanAux] at h
    injection h with h1 h2
    exact Except.noConfusion h1
  | succ f ih =>
    intro pr a v a' h
    rcases hr : aRead 1 a with ⟨res1, a1⟩
    cases res1 with
    | error e1 =>
      simp only [aHuffmanAux, hr] at h
      injection h with h1 h2
      exact Except.noConfusion h1
    | ok bit =>
      have hr' : aRead 1 ⟨a.pend, a.src⟩ = (.ok bit, a1) := by
        cases a
        exact hr
      have hm := aRead_measure 1 a.pend a.src bit a1 hr'
      rcases hlook : huffmanLookup (pr ||| bit) with _ | w
      · simp only [aHuffmanAux, hr, hlook] at h
        have := ih ((pr ||| bit) <<< 1) a1 v a' h
        omega
      · simp only [aHuffmanAux, hr, hlook] at h
        injection h with h1 h2
        subst h2
        omega

/-- The source after a Huffman decode is a suffix of the one before. -/
theorem aHuffmanAux_src_suffix (f : Nat) :
    ∀ (pr : Nat) (a : AReader) (res : Except TampError Nat) (a' : AReader),
      aHuffmanAux f pr a = (res, a') → res ≠ .error .eofError →
      ∃ k, a'.src = a.src.drop k := by
  induction f with
  | zero =>
    intro pr a res a' h hne
    simp only [aHuffmanAux] at h
    injection h with h1 h2
    subst h2
    exact ⟨0, rfl⟩
  | succ f ih =>
    intro pr a res a' h hne
    rcases hr : aRead 1 a with ⟨res1, a1⟩
    cases res1 with
    | error e1 =>
      have he1 := aRead_error 1 a e1 a1 hr
      subst he1
      simp only [aHuffmanAux, hr] at h
      injection h with h1 h2
      subst h1
      exact absurd rfl hne
    | ok bit =>
      have hr' : aRead 1 ⟨a.pend, a.src⟩ = (.ok bit, a1) := by
        cases a
        exact hr
      obtain ⟨k1, hk1⟩ := aRead_src_suffix 1 a.pend a.src bit a1 hr'
      rcases hlook : huffmanLookup (pr ||| bit) with _ | w
      · simp only [aHuffmanAux, hr, hlook] at h
        obtain ⟨k2, hk2⟩ := ih ((pr ||| bit) <<< 1) a1 res a' h hne
        exact ⟨k1 + k2, by rw [hk2, hk1, List.drop_drop, Nat.add_comm]⟩
      · simp only [aHuffmanAux, hr, hlook] at h
        injection h with h1 h2
        subst h2
        exact ⟨k1, hk1⟩

/-- A decoded Huffman symbol is at most 14. -/
theorem aHuffmanAux_le (f : Nat) :
    ∀ (pr : Nat) (a : AReader) (v : Nat) (a' : AReader),
      aHuffmanAux f pr a = (.ok v, a') → v ≤ 14 := by
  induction f with
  | zero =>
    intro pr a v a' h
    simp only [aHuffmanAux] at h
    injection h with h1 h2
    exact Except.noConfusion h1
  | succ f ih =>
    intro pr a v a' h
    rcases hr : aRead 1 a with ⟨res1, a1⟩
    cases res1 with
    | error e1 =>
      simp only [aHuffmanAux, hr] at h
      injection h with h1 h2
      exact Except.noConfusion h1
    | ok bit =>
      rcases hlook : huffmanLookup (pr ||| bit) with _ | w
      · simp only [aHuffmanAux, hr, hlook] at h
        exact ih ((pr ||| bit) <<< 1) a1 v a' h
      · simp only [aHuffmanAux, hr, hlook] at h
        injection h with h1 h2
        injection h1 with h3
        subst h3
        exact huffmanLookup_le _ _ hlook

/-! ### Concretization: the canonical `BitReader` of an abstract reader

`_BitReader` keeps the pending bits left-aligned in a 64-bit accumulator.
`concN a` is the canonical reader holding the bits of `a` with no open
transaction; `concB c a` is the canonical mid-transaction reader whose
backup tracks the already-consumed bits `c` of the transaction. -/

/-- Canonical concrete reader: pending bits left-aligned, no backup. -/
def concN (a : AReader) : BitReader :=
  { buffer := bitsVal a.pend <<< (64 - a.pend.length), bitPos := a.pend.length,
    backupBuffer := none, backupBitPos := none, src := a.src }

/-- Canonical mid-transaction reader: `c` are the bits consumed since
`__enter__`, so the backup holds `c ++ a.pend`. -/
def concB (c : List Bool) (a : AReader) : BitReader :=
  { buffer := bitsVal a.pend <<< (64 - a.pend.length), bitPos := a.pend.length,
    backupBuffer := some (bitsVal (c ++ a.pend) <<< (64 - (c ++ a.pend).length)),
    backupBitPos := some (c ++ a.pend).length, src := a.src }

theorem concN_enter (a : AReader) : (concN a).enter = concB [] a := rfl

theorem concB_exitOk (c : List Bool) (a : AReader) : (concB c a).exitOk = concN a := rfl

theorem concB_exitErr (c : List Bool) (a : AReader) :
    (concB c a).exitErr = concN ⟨c ++ a.pend, a.src⟩ := rfl

theorem concB_clear_exitOk (c : List Bool) (a : AReader) :
    (concB c a).clear.exitOk = concN ⟨[], a.src⟩ := by
  simp [concB, concN, BitReader.clear, BitReader.exitOk, bitsVal, Nat.zero_shiftLeft]

/-- Or-ing a fetched byte below the left-aligned pending bits appends its
8 bits. -/
theorem conc_or_byte (p : List Bool) (b : Nat) (hb : b < 256) (hp : p.length ≤ 56) :
    (bitsVal p <<< (64 - p.length)) ||| (b <<< (56 - p.length)) =
      bitsVal (p ++ byteBits b) <<< (64 - (p ++ byteBits b).length) := by
  have hbb : bitsVal (byteBits b) = b := by
    rw [byteBits, bitsVal_natBits]
    exact Nat.mod_eq_of_lt hb
  have hbl : (byteBits b).length = 8 := by simp [byteBits, natBits_length]
  have hlen : (p ++ byteBits b).length = p.length + 8 := by simp [hbl]
  have h64 : 64 - p.length = 8 + (56 - p.length) := by omega
  have h64b : 64 - (p.length + 8) = 56 - p.length := by omega
  have hb8 : b < 2 ^ 8 := by
    have h256 : (2 : Nat) ^ 8 = 256 := by norm_num
    omega
  have hbig : b * 2 ^ (56 - p.length) < 2 ^ (64 - p.length) := by
    rw [h64, pow_add]
    exact mul_lt_mul_of_pos_right hb8 (pow_pos (by norm_num) _)
  simp only [Nat.shiftLeft_eq]
  rw [bitsVal_append, hbb, hbl, hlen, h64b]
  rw [mul_pow_or_eq_add hbig]
  rw [h64, pow_add]
  ring

/-- Extracting the top `n` pending bits of the left-aligned accumulator. -/
theorem conc_shr (p : List Bool) (n : Nat) (hn : n ≤ p.length) (hL : p.length ≤ 64) :
    (bitsVal p <<< (64 - p.length)) >>> (64 - n) = bitsVal (p.take n) := by
  have hdl : (p.drop n).length = p.length - n := by simp
  have htl : (p.take n).length = n := by simp [hn]
  have hsplit : bitsVal p = bitsVal (p.take n) * 2 ^ (p.length - n) + bitsVal (p.drop n) := by
    conv_lhs => rw [← List.take_append_drop n p]
    rw [bitsVal_append, hdl]
  have hB : bitsVal (p.drop n) < 2 ^ (p.length - n) := by
    have := bitsVal_lt (p.drop n)
    rwa [hdl] at this
  simp only [Nat.shiftLeft_eq]
  rw [Nat.shiftRight_eq_div_pow, hsplit]
  have hexp : (p.length - n) + (64 - p.length) = 64 - n := by omega
  have hdist : (bitsVal (p.take n) * 2 ^ (p.length - n) + bitsVal (p.drop n)) * 2 ^ (64 - p.length)
      = 2 ^ (64 - n) * bitsVal (p.take n) + bitsVal (p.drop n) * 2 ^ (64 - p.length) := by
    rw [← hexp, pow_add]
    ring
  rw [hdist]
  have hlt : bitsVal (p.drop n) * 2 ^ (64 - p.length) < 2 ^ (64 - n) := by
    rw [← hexp, pow_add]
    exact mul_lt_mul_of_pos_right hB (pow_pos (by norm_num) _)
  rw [Nat.mul_add_div (pow_pos (by norm_num) _), Nat.div_eq_of_lt hlt]
  omega

/-- Dropping the top `n` pending bits of the left-aligned accumulator. -/
theorem conc_mod_shl (p : List Bool) (n : Nat) (hn : n ≤ p.length) (hL : p.length ≤ 64) :
    ((bitsVal p <<< (64 - p.length)) % (1 <<< (64 - n))) <<< n =
      bitsVal (p.drop n) <<< (64 - (p.drop n).length) := by
  have hdl : (p.drop n).length = p.length - n := by simp
  have hsplit : bitsVal p = bitsVal (p.take n) * 2 ^ (p.length - n) + bitsVal (p.drop n) := by
    conv_lhs => rw [← List.take_append_drop n p]
    rw [bitsVal_append, hdl]
  have hB : bitsVal (p.drop n) < 2 ^ (p.length - n) := by
    have := bitsVal_lt (p.drop n)
    rwa [hdl] at this
  simp only [Nat.shiftLeft_eq, one_mul]
  rw [hsplit, hdl]
  have hexp : (p.length - n) + (64 - p.length) = 64 - n := by omega
  have hdist : (bitsVal (p.take n) * 2 ^ (p.length - n) + bitsVal (p.drop n)) * 2 ^ (64 - p.length)
      = 2 ^ (64 - n) * bitsVal (p.take n) + bitsVal (p.drop n) * 2 ^ (64 - p.length) := by
    rw [← hexp, pow_add]
    ring
  rw [hdist]
  have hlt : bitsVal (p.drop n) * 2 ^ (64 - p.length) < 2 ^ (64 - n) := by
    rw [← hexp, pow_add]
    exact mul_lt_mul_of_pos_right hB (pow_pos (by norm_num) _)
  rw [Nat.mul_add_mod, Nat.mod_eq_of_lt hlt]
  have hfin : 64 - p.length + n = 64 - (p.length - n) := by omega
  rw [mul_assoc, ← pow_add, hfin]

theorem byteBits_length (b : Nat) : (byteBits b).length = 8 := by
  simp [byteBits, natBits_length]

/-- Closed form of a successful fetch: the moved bytes extend the pending
bits. -/
theorem aFetchLoop_absorb (fuel : Nat) :
    ∀ (n : Nat) (a a1 : AReader), aFetchLoop fuel n a = (.ok (), a1) →
      ∃ t, a.src = t ++ a1.src ∧ a1.pend = a.pend ++ bytesBits t := by
  induction fuel with
  | zero =>
    intro n a a1 h
    simp only [aFetchLoop] at h
    injection h with h1 h2
    subst h2
    exact ⟨[], by simp, by simp [bytesBits]⟩
  | succ fuel ih =>
    intro n a a1 h
    simp only [aFetchLoop] at h
    by_cases hlt : a.pend.length < n
    · rw [if_pos hlt] at h
      cases hsrc : a.src with
      | nil =>
        rw [hsrc] at h
        injection h with h1 h2
        exact Except.noConfusion h1
      | cons b rest =>
        rw [hsrc] at h
        obtain ⟨t, ht1, ht2⟩ := ih n ⟨a.pend ++ byteBits b, rest⟩ a1 h
        simp only at ht1 ht2
        refine ⟨b :: t, ?_, ?_⟩
        · rw [ht1, List.cons_append]
        · rw [ht2]
          simp [bytesBits, List.append_assoc]
    · rw [if_neg hlt] at h
      injection h with h1 h2
      subst h2
      exact ⟨[], by simp, by simp [bytesBits]⟩

/-- With enough fuel, a successful fetch leaves at least `n` pending
bits. -/
theorem aFetchLoop_ok_pend (fuel : Nat) :
    ∀ (n : Nat) (a a1 : AReader), n ≤ a.pend.length + 8 * fuel →
      aFetchLoop fuel n a = (.ok (), a1) → n ≤ a1.pend.length := by
  induction fuel with
  | zero =>
    intro n a a1 hf h
    simp only [aFetchLoop] at h
    injection h with h1 h2
    subst h2
    omega
  | succ fuel ih =>
    intro n a a1 hf h
    simp only [aFetchLoop] at h
    by_cases hlt : a.pend.length < n
    · rw [if_pos hlt] at h
      cases hsrc : a.src with
      | nil =>
        rw [hsrc] at h
        injection h with h1 h2
        exact Except.noConfusion h1
      | cons b rest =>
        rw [hsrc] at h
        refine ih n ⟨a.pend ++ byteBits b, rest⟩ a1 ?_ h
        simp only [List.length_append, byteBits_length]
        omega
    · rw [if_neg hlt] at h
      injection h with h1 h2
      subst h2
      omega

/-- The concrete fetch loop tracks the abstract one on canonical
mid-transaction readers (the backup tracks the fetched bytes). -/
theorem conc_fetchLoop (fuel : Nat) :
    ∀ (n : Nat) (c : List Bool) (a : AReader) (res : Except TampError Unit) (a1 : AReader),
      bytesOk a.src → c.length + a.pend.length ≤ 56 → c.length + n + 7 ≤ 56 →
      aFetchLoop fuel n a = (res, a1) →
      BitReader.fetchLoop fuel n (concB c a) = (res, concB c a1) ∧
        bytesOk a1.src ∧ c.length + a1.pend.length ≤ 56 := by
  induction fuel with
  | zero =>
    intro n c a res a1 hb h1 h2 h
    simp only [aFetchLoop] at h
    injection h with hr ha
    subst hr
    subst ha
    exact ⟨rfl, hb, h1⟩
  | succ fuel ih =>
    intro n c a res a1 hb h1 h2 h
    simp only [aFetchLoop] at h
    by_cases hlt : a.pend.length < n
    · rw [if_pos hlt] at h
      cases hsrc : a.src with
      | nil =>
        rw [hsrc] at h
        injection h with hr ha
        subst hr
        subst ha
        refine ⟨?_, hb, h1⟩
        simp only [BitReader.fetchLoop]
        rw [if_pos (show (concB c a).bitPos < n from hlt),
            show (concB c a).src = [] from hsrc]
      | cons b rest =>
        rw [hsrc] at h
        have hbv : b < 256 := hb b (by rw [hsrc]; exact List.mem_cons_self b rest)
        have hbrest : bytesOk rest := fun x hx => hb x (by
          rw [hsrc]
          exact List.mem_cons_of_mem b hx)
        have hpe : a.pend.length ≤ 56 := by omega
        have hce : (c ++ a.pend).length ≤ 56 := by
          simp only [List.length_append]
          omega
        obtain ⟨hconc, hb1, hlen1⟩ := ih n c ⟨a.pend ++ byteBits b, rest⟩ res a1 hbrest
          (by simp only [List.length_append, byteBits_length]; omega) h2 h
        refine ⟨?_, hb1, hlen1⟩
        rw [← hconc]
        simp only [BitReader.fetchLoop]
        rw [if_pos (show (concB c a).bitPos < n from hlt),
            show (concB c a).src = b :: rest from hsrc]
        dsimp only
        congr 1
        simp only [concB, BitReader.mk.injEq]
        refine ⟨?_, ?_, ?_, ?_, trivial⟩
        · exact conc_or_byte a.pend b hbv hpe
        · simp only [List.length_append, byteBits_length]
        · rw [conc_or_byte (c ++ a.pend) b hbv hce, List.append_assoc]
        · simp only [Option.some.injEq, List.length_append, byteBits_length]
          omega
    · rw [if_neg hlt] at h
      injection h with hr ha
      subst hr
      subst ha
      refine ⟨?_, hb, h1⟩
      simp only [BitReader.fetchLoop]
      rw [if_neg (show ¬ (concB c a).bitPos < n from hlt)]

/-- The concrete `_BitReader.read` tracks the abstract one on canonical
mid-transaction readers: on success the `n` consumed bits move into the
transaction log `c`; at end of input every source byte has been absorbed
into the accumulator (and its backup) and `c` is unchanged. -/
theorem concB_read (n : Nat) (c : List Bool) (a : AReader) (res : Except TampError Nat)
    (a' : AReader) (hb : bytesOk a.src) (h1 : c.length + a.pend.length ≤ 56)
    (h2 : c.length + n + 7 ≤ 56) (hr : aRead n a = (res, a')) :
    ∃ c' t, BitReader.read n (concB c a) = (res, concB c' a') ∧
      a.src = t ++ a'.src ∧ c' ++ a'.pend = c ++ a.pend ++ bytesBits t ∧
      c'.length ≤ c.length + n ∧ c'.length + a'.pend.length ≤ 56 ∧ bytesOk a'.src := by
  obtain ⟨p, s⟩ := a
  have hr0 := hr
  simp only [aRead] at hr
  rcases hf : aFetchLoop (n + 8) n ⟨p, s⟩ with ⟨resF, a1⟩
  rw [hf] at hr
  cases resF with
  | error e =>
    simp only at hr
    injection hr with hr1 hr2
    subst hr1
    subst hr2
    have he : e = .eofError := aFetchLoop_error _ _ _ _ _ hf
    subst he
    have hlt : p.length + 8 * s.length < n := by
      by_contra hge
      obtain ⟨v, a2, hok⟩ := aRead_isOk n p s (by omega)
      rw [hok] at hr0
      injection hr0 with hx hy
      exact Except.noConfusion hx
    have heq := aRead_eof n p s hlt
    rw [hr0] at heq
    injection heq with he1 he2
    obtain ⟨hcf, hb1, hlen1⟩ := conc_fetchLoop (n + 8) n c ⟨p, s⟩ (.error .eofError) a1 hb h1 h2 hf
    refine ⟨c, s, ?_, by rw [he2]; simp, ?_, by omega, hlen1, hb1⟩
    · simp only [BitReader.read]
      rw [hcf]
    · rw [he2]
      simp [List.append_assoc]
  | ok u =>
    cases u
    simp only at hr
    injection hr with hr1 hr2
    subst hr1
    subst hr2
    dsimp only
    obtain ⟨t, ht1, ht2⟩ := aFetchLoop_absorb (n + 8) n ⟨p, s⟩ a1 hf
    simp only at ht1 ht2
    have hnp : n ≤ a1.pend.length := by
      refine aFetchLoop_ok_pend (n + 8) n ⟨p, s⟩ a1 ?_ hf
      simp only
      omega
    obtain ⟨hcf, hb1, hlen1⟩ := conc_fetchLoop (n + 8) n c ⟨p, s⟩ (.ok ()) a1 hb h1 h2 hf
    have hL64 : a1.pend.length ≤ 64 := by omega
    refine ⟨c ++ a1.pend.take n, t, ?_, ht1, ?_, ?_, ?_, hb1⟩
    · simp only [BitReader.read]
      rw [hcf]
      dsimp only
      refine Prod.ext ?_ ?_
      · exact congrArg Except.ok (conc_shr a1.pend n hnp hL64)
      · simp only [concB, BitReader.mk.injEq]
        refine ⟨?_, ?_, ?_, ?_, trivial⟩
        · exact conc_mod_shl a1.pend n hnp hL64
        · simp only [List.length_drop]
        · rw [List.append_assoc, List.take_append_drop]
        · rw [List.append_assoc, List.take_append_drop]
    · rw [List.append_assoc, List.take_append_drop, ht2, List.append_assoc]
    · simp only [List.length_append, List.length_take]
      omega
    · simp only [List.length_append, List.length_take, List.length_drop]
      omega

/-- The concrete Huffman decode loop tracks the abstract one on canonical
mid-transaction readers. -/
theorem concB_huffmanAux (f : Nat) :
    ∀ (pr : Nat) (c : List Bool) (a : AReader) (res : Except TampError Nat) (a' : AReader),
      bytesOk a.src → c.length + a.pend.length ≤ 56 → c.length + f + 8 ≤ 56 →
      aHuffmanAux f pr a = (res, a') →
      ∃ c' t, BitReader.readHuffmanAux f pr (concB c a) = (res, concB c' a') ∧
        a.src = t ++ a'.src ∧ c' ++ a'.pend = c ++ a.pend ++ bytesBits t ∧
        c'.length ≤ c.length + f ∧ c'.length + a'.pend.length ≤ 56 ∧ bytesOk a'.src := by
  induction f with
  | zero =>
    intro pr c a res a' hb h1 h2 h
    simp only [aHuffmanAux] at h
    injection h with hres ha
    subst hres
    subst ha
    exact ⟨c, [], rfl, by simp, by simp [bytesBits], by omega, h1, hb⟩
  | succ f ih =>
    intro pr c a res a' hb h1 h2 h
    rcases hr1 : aRead 1 a with ⟨res1, a1⟩
    obtain ⟨c1, t1, hcr, hs1, hroll1, hlen1, hb1, hok1⟩ :=
      concB_read 1 c a res1 a1 hb h1 (by omega) hr1
    cases res1 with
    | error e =>
      have he := aRead_error 1 a e a1 hr1
      subst he
      simp only [aHuffmanAux, hr1] at h
      injection h with hres ha
      subst hres
      subst ha
      refine ⟨c1, t1, ?_, hs1, hroll1, by omega, hb1, hok1⟩
      simp only [BitReader.readHuffmanAux]
      rw [hcr]
    | ok bit =>
      rcases hlook : huffmanLookup (pr ||| bit) with _ | v
      · simp only [aHuffmanAux, hr1, hlook] at h
        obtain ⟨c2, t2, hcr2, hs2, hroll2, hlen2, hb2, hok2⟩ :=
          ih ((pr ||| bit) <<< 1) c1 a1 res a' hok1 hb1 (by omega) h
        refine ⟨c2, t1 ++ t2, ?_, ?_, ?_, by omega, hb2, hok2⟩
        · simp only [BitReader.readHuffmanAux]
          rw [hcr]
          dsimp only
          rw [hlook]
          exact hcr2
        · rw [hs1, hs2, List.append_assoc]
        · rw [hroll2, hroll1, bytesBits_append]
          simp [List.append_assoc]
      · simp only [aHuffmanAux, hr1, hlook] at h
        injection h with hres ha
        subst hres
        subst ha
        refine ⟨c1, t1, ?_, hs1, hroll1, by omega, hb1, hok1⟩
        simp only [BitReader.readHuffmanAux]
        rw [hcr]
        dsimp only
        rw [hlook]

/-- Abstract mirror of `DecompState.decodeMatchPart` on the abstract
reader; `en` is the reader at transaction entry, used by the rollback
states.  Returns the outcome, the new window and the new reader. -/
def aDecMatch (windowBits minPatternSize : Nat) (extended : Bool) (window : RingBuffer)
    (en r2 : AReader) (matchSize : Nat) :
    Except TampError TokenOutcome × RingBuffer × AReader :=
  if matchSize = FLUSH then (.ok .flushCont, window, ⟨[], r2.src⟩)
  else if extended ∧ 11 < matchSize then
          if matchSize = RLE_SYMBOL then
            match aHuffman r2 with
            | (.error .eofError, r3) => (.ok .eofBreak, window, aRollState en r3)
            | (.error e, r3) => (.error e, window, aRollState en r3)
            | (.ok h, r3) =>
              match aRead LEADING_RLE_HUFFMAN_BITS r3 with
              | (.error .eofError, r4) => (.ok .eofBreak, window, aRollState en r4)
              | (.error e, r4) => (.error e, window, aRollState en r4)
              | (.ok raw, r4) =>
                let rleCount := (h <<< LEADING_RLE_HUFFMAN_BITS) + raw + 1 + 1
                let symbol := window.lastWrittenByte
                let string := List.replicate rleCount symbol
                let remaining := window.buffer.length - window.pos
                let windowWrite := min (min rleCount RLE_MAX_WINDOW) remaining
                (.ok (.tokenOut string), window.writeBytes (string.take windowWrite), r4)
          else if matchSize = EXTENDED_MATCH_SYMBOL then
            match aHuffman r2 with
            | (.error .eofError, r3) => (.ok .eofBreak, window, aRollState en r3)
            | (.error e, r3) => (.error e, window, aRollState en r3)
            | (.ok h, r3) =>
              match aRead LEADING_EXTENDED_MATCH_HUFFMAN_BITS r3 with
              | (.error .eofError, r4) => (.ok .eofBreak, window, aRollState en r4)
              | (.error e, r4) => (.error e, window, aRollState en r4)
              | (.ok raw, r4) =>
                let ms := (h <<< LEADING_EXTENDED_MATCH_HUFFMAN_BITS) + raw +
                          minPatternSize + 11 + 1
                match aRead windowBits r4 with
                | (.error .eofError, r5) => (.ok .eofBreak, window, aRollState en r5)
                | (.error e, r5) => (.error e, window, aRollState en r5)
                | (.ok index, r5) =>
                  let string := window.getRange index ms
                  let remaining := window.buffer.length - window.pos
                  let windowWrite := min ms remaining
                  (.ok (.tokenOut string), window.writeBytes (string.take windowWrite), r5)
          else (.error .valueError, window, aRollState en r2)
        else
          let ms := matchSize + minPatternSize
          match aRead windowBits r2 with
          | (.error .eofError, r3) => (.ok .eofBreak, window, aRollState en r3)
          | (.error e, r3) => (.error e, window, aRollState en r3)
          | (.ok index, r3) =>
            let string := window.getRange index ms
            (.ok (.tokenOut string), window.writeBytes string, r3)

/-- Abstract mirror of one transactional token decode
(`DecompState.decodeOneToken`) on the abstract reader. -/
def aDec (literalBits windowBits minPatternSize : Nat) (extended : Bool)
    (window : RingBuffer) (a : AReader) :
    Except TampError TokenOutcome × RingBuffer × AReader :=
  match aRead 1 a with
  | (.error .eofError, r1) => (.ok .eofBreak, window, aRollState a r1)
  | (.error e, r1) => (.error e, window, aRollState a r1)
  | (.ok isLiteral, r1) =>
    if isLiteral ≠ 0 then
      match aRead literalBits r1 with
      | (.error .eofError, r2) => (.ok .eofBreak, window, aRollState a r2)
      | (.error e, r2) => (.error e, window, aRollState a r2)
      | (.ok lit, r2) => (.ok (.tokenOut [lit]), window.writeBytes [lit], r2)
    else
      match aHuffman r1 with
      | (.error .eofError, r2) => (.ok .eofBreak, window, aRollState a r2)
      | (.error e, r2) => (.error e, window, aRollState a r2)
      | (.ok matchSize, r2) =>
        aDecMatch windowBits minPatternSize extended window a r2 matchSize

/-- The rollback state is the consumed-bits log plus the current reader. -/
theorem aRollState_eq (en cur : AReader) (c : List Bool) (t : List Nat)
    (hs : en.src = t ++ cur.src) (hroll : c ++ cur.pend = en.pend ++ bytesBits t) :
    aRollState en cur = ⟨c ++ cur.pend, cur.src⟩ := by
  simp only [aRollState, AReader.mk.injEq]
  refine ⟨?_, trivial⟩
  rw [hroll, hs]
  have hlen : (t ++ cur.src).length - cur.src.length = t.length := by
    simp only [List.length_append]
    omega
  rw [hlen, List.take_left]

/-- Chaining two reads inside one transaction. -/
theorem roll_trans {en a1 a2 : AReader} {c1 c2 : List Bool} {t1 t2 : List Nat}
    (hs1 : en.src = t1 ++ a1.src) (hr1 : c1 ++ a1.pend = en.pend ++ bytesBits t1)
    (hs2 : a1.src = t2 ++ a2.src) (hr2 : c2 ++ a2.pend = c1 ++ a1.pend ++ bytesBits t2) :
    en.src = (t1 ++ t2) ++ a2.src ∧ c2 ++ a2.pend = en.pend ++ bytesBits (t1 ++ t2) := by
  constructor
  · rw [hs1, hs2, List.append_assoc]
  · rw [hr2, hr1, bytesBits_append]
    simp [List.append_assoc]

set_option maxHeartbeats 1000000 in
/-- `decodeMatchPart` on a canonical mid-transaction reader tracks the
abstract decoder. -/
theorem conc_decMatch (st : DecompState) (a r2 : AReader) (c2 : List Bool) (T : List Nat)
    (hb2 : bytesOk r2.src) (hs : a.src = T ++ r2.src)
    (hroll : c2 ++ r2.pend = a.pend ++ bytesBits T)
    (hlen : c2.length + r2.pend.length ≤ 56) (hc2 : c2.length ≤ 9)
    (hw : st.windowBits ≤ 15) (matchSize : Nat)
    (res : Except TampError TokenOutcome) (w' : RingBuffer) (a' : AReader)
    (h : aDecMatch st.windowBits st.minPatternSize st.extended st.window a r2 matchSize
      = (res, w', a')) :
    st.decodeMatchPart (concB c2 r2) matchSize
      = (res, { st with window := w', reader := concN a' }) := by
  simp only [aDecMatch] at h
  simp only [DecompState.decodeMatchPart]
  by_cases hF : matchSize = FLUSH
  · rw [if_pos hF] at h
    rw [if_pos hF]
    injection h with h1 h2
    injection h2 with h2a h2b
    subst h1
    subst h2a
    subst h2b
    rw [concB_clear_exitOk]
  · rw [if_neg hF] at h
    rw [if_neg hF]
    by_cases hE : st.extended ∧ 11 < matchSize
    · rw [if_pos hE] at h
      rw [if_pos hE]
      by_cases hR : matchSize = RLE_SYMBOL
      · rw [if_pos hR] at h
        rw [if_pos hR]
        rcases hH : aHuffman r2 with ⟨resH, r3⟩
        rw [hH] at h
        obtain ⟨c3, t3, hcrH, hs3, hroll3, hlenH, hbnd3, hok3⟩ :=
          concB_huffmanAux 8 0 c2 r2 resH r3 hb2 hlen (by omega) hH
        obtain ⟨hsT3, hrollT3⟩ := roll_trans hs hroll hs3 hroll3
        simp only [BitReader.readHuffman]
        rw [hcrH]
        cases resH with
        | error e =>
          cases e <;>
            (dsimp only at h ⊢
             injection h with h1 h2
             injection h2 with h2a h2b
             subst h1
             subst h2a
             subst h2b
             rw [concB_exitErr, aRollState_eq a r3 c3 (T ++ t3) hsT3 hrollT3])
        | ok hsym =>
          dsimp only at h ⊢
          rcases hR4 : aRead LEADING_RLE_HUFFMAN_BITS r3 with ⟨res4, r4⟩
          rw [hR4] at h
          obtain ⟨c4, t4, hcr4, hs4, hroll4, hlen4, hbnd4, hok4⟩ :=
            concB_read LEADING_RLE_HUFFMAN_BITS c3 r3 res4 r4 hok3 hbnd3
              (by simp only [LEADING_RLE_HUFFMAN_BITS]; omega) hR4
          obtain ⟨hsT4, hrollT4⟩ := roll_trans hsT3 hrollT3 hs4 hroll4
          rw [hcr4]
          cases res4 with
          | error e =>
            cases e <;>
              (dsimp only at h ⊢
               injection h with h1 h2
               injection h2 with h2a h2b
               subst h1
               subst h2a
               subst h2b
               rw [concB_exitErr, aRollState_eq a r4 c4 (T ++ t3 ++ t4) hsT4 hrollT4])
          | ok raw =>
            dsimp only at h ⊢
            injection h with h1 h2
            injection h2 with h2a h2b
            subst h1
            subst h2a
            subst h2b
            rw [concB_exitOk]
      · rw [if_neg hR] at h
        rw [if_neg hR]
        by_cases hX : matchSize = EXTENDED_MATCH_SYMBOL
        · rw [if_pos hX] at h
          rw [if_pos hX]
          rcases hH : aHuffman r2 with ⟨resH, r3⟩
          rw [hH] at h
          obtain ⟨c3, t3, hcrH, hs3, hroll3, hlenH, hbnd3, hok3⟩ :=
            concB_huffmanAux 8 0 c2 r2 resH r3 hb2 hlen (by omega) hH
          obtain ⟨hsT3, hrollT3⟩ := roll_trans hs hroll hs3 hroll3
          simp only [BitReader.readHuffman]
          rw [hcrH]
          cases resH with
          | error e =>
            cases e <;>
              (dsimp only at h ⊢
               injection h with h1 h2
               injection h2 with h2a h2b
               subst h1
               subst h2a
               subst h2b
               rw [concB_exitErr, aRollState_eq a r3 c3 (T ++ t3) hsT3 hrollT3])
          | ok hsym =>
            dsimp only at h ⊢
            rcases hR4 : aRead LEADING_EXTENDED_MATCH_HUFFMAN_BITS r3 with ⟨res4, r4⟩
            rw [hR4] at h
            obtain ⟨c4, t4, hcr4, hs4, hroll4, hlen4, hbnd4, hok4⟩ :=
              concB_read LEADING_EXTENDED_MATCH_HUFFMAN_BITS c3 r3 res4 r4 hok3 hbnd3
                (by simp only [LEADING_EXTENDED_MATCH_HUFFMAN_BITS]; omega) hR4
            obtain ⟨hsT4, hrollT4⟩ := roll_trans hsT3 hrollT3 hs4 hroll4
            rw [hcr4]
            cases res4 with
            | error e =>
              cases e <;>
                (dsimp only at h ⊢
                 injection h with h1 h2
                 injection h2 with h2a h2b
                 subst h1
                 subst h2a
                 subst h2b
                 rw [concB_exitErr, aRollState_eq a r4 c4 (T ++ t3 ++ t4) hsT4 hrollT4])
            | ok raw =>
              dsimp only at h ⊢
              rcases hR5 : aRead st.windowBits r4 with ⟨res5, r5⟩
              rw [hR5] at h
              obtain ⟨c5, t5, hcr5, hs5, hroll5, hlen5, hbnd5, hok5⟩ :=
                concB_read st.windowBits c4 r4 res5 r5 hok4 hbnd4
                  (by simp only [LEADING_EXTENDED_MATCH_HUFFMAN_BITS] at hlen4; omega) hR5
              obtain ⟨hsT5, hrollT5⟩ := roll_trans hsT4 hrollT4 hs5 hroll5
              rw [hcr5]
              cases res5 with
              | error e =>
                cases e <;>
                  (dsimp only at h ⊢
                   injection h with h1 h2
                   injection h2 with h2a h2b
                   subst h1
                   subst h2a
                   subst h2b
                   rw [concB_exitErr, aRollState_eq a r5 c5 (T ++ t3 ++ t4 ++ t5) hsT5 hrollT5])
              | ok index =>
                dsimp only at h ⊢
                injection h with h1 h2
                injection h2 with h2a h2b
                subst h1
                subst h2a
                subst h2b
                rw [concB_exitOk]
        · rw [if_neg hX] at h
          rw [if_neg hX]
          injection h with h1 h2
          injection h2 with h2a h2b
          subst h1
          subst h2a
          subst h2b
          rw [concB_exitErr, aRollState_eq a r2 c2 T hs hroll]
    · rw [if_neg hE] at h
      rw [if_neg hE]
      rcases hRm : aRead st.windowBits r2 with ⟨resm, r3⟩
      rw [hRm] at h
      obtain ⟨c3, t3, hcr3, hs3, hroll3, hlen3, hbnd3, hok3⟩ :=
        concB_read st.windowBits c2 r2 resm r3 hb2 hlen (by omega) hRm
      obtain ⟨hsT3, hrollT3⟩ := roll_trans hs hroll hs3 hroll3
      rw [hcr3]
      cases resm with
      | error e =>
        cases e <;>
          (dsimp only at h ⊢
           injection h with h1 h2
           injection h2 with h2a h2b
           subst h1
           subst h2a
           subst h2b
           rw [concB_exitErr, aRollState_eq a r3 c3 (T ++ t3) hsT3 hrollT3])
      | ok index =>
        dsimp only at h ⊢
        injection h with h1 h2
        injection h2 with h2a h2b
        subst h1
        subst h2a
        subst h2b
        rw [concB_exitOk]

set_option maxHeartbeats 1000000 in
/-- One concrete transactional token decode from a canonical reader
tracks the abstract decoder. -/
theorem conc_decode (st : DecompState) (a : AReader) (hrd : st.reader = concN a)
    (hb : bytesOk a.src) (hp : a.pend.length ≤ 7) (hl : st.literalBits ≤ 8)
    (hw : st.windowBits ≤ 15)
    (res : Except TampError TokenOutcome) (w' : RingBuffer) (a' : AReader)
    (h : aDec st.literalBits st.windowBits st.minPatternSize st.extended st.window a
      = (res, w', a')) :
    st.decodeOneToken = (res, { st with window := w', reader := concN a' }) := by
  simp only [aDec] at h
  simp only [DecompState.decodeOneToken, hrd, concN_enter]
  rcases hr1 : aRead 1 a with ⟨res1, a1⟩
  rw [hr1] at h
  obtain ⟨c1, t1, hcr1, hs1, hroll1, hlen1, hbnd1, hok1⟩ :=
    concB_read 1 [] a res1 a1 hb (by simp only [List.length_nil]; omega)
      (by simp only [List.length_nil]; omega) hr1
  simp only [List.nil_append] at hroll1
  simp only [List.length_nil] at hlen1
  rw [hcr1]
  cases res1 with
  | error e =>
    cases e <;>
      (dsimp only at h ⊢
       injection h with h1 h2
       injection h2 with h2a h2b
       subst h1
       subst h2a
       subst h2b
       rw [concB_exitErr, aRollState_eq a a1 c1 t1 hs1 hroll1])
  | ok isLit =>
    dsimp only at h ⊢
    by_cases hLit : isLit ≠ 0
    · rw [if_pos hLit] at h
      rw [if_pos hLit]
      rcases hr2 : aRead st.literalBits a1 with ⟨res2, a2⟩
      rw [hr2] at h
      obtain ⟨c2, t2, hcr2, hs2, hroll2, hlen2, hbnd2, hok2⟩ :=
        concB_read st.literalBits c1 a1 res2 a2 hok1 hbnd1 (by omega) hr2
      obtain ⟨hsT2, hrollT2⟩ := roll_trans hs1 hroll1 hs2 hroll2
      rw [hcr2]
      cases res2 with
      | error e =>
        cases e <;>
          (dsimp only at h ⊢
           injection h with h1 h2
           injection h2 with h2a h2b
           subst h1
           subst h2a
           subst h2b
           rw [concB_exitErr, aRollState_eq a a2 c2 (t1 ++ t2) hsT2 hrollT2])
      | ok lit =>
        dsimp only at h ⊢
        injection h with h1 h2
        injection h2 with h2a h2b
        subst h1
        subst h2a
        subst h2b
        rw [concB_exitOk]
    · rw [if_neg hLit] at h
      rw [if_neg hLit]
      rcases hH : aHuffman a1 with ⟨resH, a2⟩
      rw [hH] at h
      obtain ⟨c2, t2, hcrH, hs2, hroll2, hlen2, hbnd2, hok2⟩ :=
        concB_huffmanAux 8 0 c1 a1 resH a2 hok1 hbnd1 (by omega) hH
      obtain ⟨hsT2, hrollT2⟩ := roll_trans hs1 hroll1 hs2 hroll2
      simp only [BitReader.readHuffman]
      rw [hcrH]
      cases resH with
      | error e =>
        cases e <;>
          (dsimp only at h ⊢
           injection h with h1 h2
           injection h2 with h2a h2b
           subst h1
           subst h2a
           subst h2b
           rw [concB_exitErr, aRollState_eq a a2 c2 (t1 ++ t2) hsT2 hrollT2])
      | ok matchSize =>
        dsimp only at h ⊢
        exact conc_decMatch st a a2 c2 (t1 ++ t2) hok2 hsT2 hrollT2 hbnd2 (by omega) hw
          matchSize res w' a' h

end Tamp
